import Mathlib

/-!
A shallow embedding of `homing_bees.py`, the landmark-based visual homing
algorithm of this repository, together with proofs about it.

Python floats are idealised as real numbers, `math.atan2` as the argument of
a complex number, `math.asin` as `Real.arcsin` guarded by its domain (Python
raises `ValueError` outside `[-1, 1]`), and the float modulo `x % (2*pi)`
(with positive modulus) as `mod2pi`.  Computations that can raise a Python
exception are modelled with `Option`: `none` means the Python code raises.
-/

namespace HomingBees

open Real

noncomputable section

open Classical

/-- Two dimensional vector (`class Vector` in `homing_bees.py`). -/
structure Vector where
  x : ℝ
  y : ℝ

/-- The value of `math.atan2 y x`: the argument of the complex number
`x + y*I`, lying in `(-pi, pi]`. -/
def atan2 (y x : ℝ) : ℝ := Complex.arg ⟨x, y⟩

/-- `Vector.direction`: `atan2` folded into `[0, 2*pi)` by adding `2*pi`
to negative values. -/
def Vector.direction (v : Vector) : ℝ :=
  let d := atan2 v.y v.x
  if d < 0 then d + 2 * π else d

/-- `Vector.__abs__`: the Euclidean length `sqrt(x*x + y*y)`. -/
def Vector.abs (v : Vector) : ℝ := Real.sqrt (v.x * v.x + v.y * v.y)

/-- `Vector.normalize`: the zero vector when the length is zero. -/
def Vector.normalize (v : Vector) : Vector :=
  if v.abs = 0 then ⟨0, 0⟩ else ⟨v.x / v.abs, v.y / v.abs⟩

/-- `Vector.__sub__`. -/
instance : Sub Vector := ⟨fun a b => ⟨a.x - b.x, a.y - b.y⟩⟩

/-- `Vector.__add__`. -/
instance : Add Vector := ⟨fun a b => ⟨a.x + b.x, a.y + b.y⟩⟩

/-- A circular landmark (`class Landmark`). -/
structure Landmark where
  position : Vector
  diameter : ℝ

/-- `Landmark.radius`. -/
def Landmark.radius (l : Landmark) : ℝ := l.diameter / 2

/-- Python float modulo with modulus `2*pi`, as in `x % (2 * math.pi)`. -/
def mod2pi (x : ℝ) : ℝ := x - 2 * π * ⌊x / (2 * π)⌋

/-- `math.asin`: raises (`none`) outside `[-1, 1]`. -/
def asin (x : ℝ) : Option ℝ :=
  if -1 ≤ x ∧ x ≤ 1 then some (Real.arcsin x) else none

/-- An angular feature on the retina (`class Feature`): start and end angle
in radians.  The Python attribute `end` is a Lean keyword and is called
`stop` here. -/
structure Feature where
  start : ℝ
  stop : ℝ

/-- `Feature.from_position_and_landmark`. -/
def Feature.from_position_and_landmark (position : Vector) (landmark : Landmark) :
    Option Feature := do
  let vector_to_center_of_landmark := landmark.position - position
  let hypotenuse_length := (landmark.position - position).abs
  let opposite_length := landmark.radius
  let angle ← if hypotenuse_length ≠ 0 then asin (opposite_length / hypotenuse_length)
    else some 0
  let s := vector_to_center_of_landmark.direction - angle
  let s := if s < 0 then s + 2 * π else s
  let e := mod2pi (vector_to_center_of_landmark.direction + angle)
  pure (Feature.mk s e)

/-- `Feature.across_zero`: the feature extends over the zero-degree point. -/
def Feature.across_zero (f : Feature) : Prop := f.start > f.stop

/-- `Feature.width`: the angular extent, adding `2*pi` when the feature
wraps the zero point. -/
def Feature.width (f : Feature) : ℝ :=
  if f.across_zero then f.stop - f.start + 2 * π else f.stop - f.start

/-- `Feature.center`. -/
def Feature.center (f : Feature) : ℝ := mod2pi (f.start + f.width / 2)

/-- The distance proxy `sin(|Δcenter| / 2)` computed inside
`Feature.find_closest`. -/
def distProxy (self f : Feature) : ℝ := Real.sin (|self.center - f.center| / 2)

/-- The loop of `Feature.find_closest`: walk the remaining candidates,
replacing the current closest whenever its proxy distance is strictly
larger. -/
def findClosestAux (self : Feature) : List Feature → Feature → Feature
  | [], closest => closest
  | f :: rest, closest =>
    if distProxy self closest > distProxy self f then findClosestAux self rest f
    else findClosestAux self rest closest

/-- `Feature.find_closest`: `none` on an empty candidate list (the Python
code raises `IndexError` at `features[0]`). -/
def Feature.find_closest (self : Feature) (features : List Feature) : Option Feature :=
  match features with
  | [] => none
  | closest :: rest => some (findClosestAux self rest closest)

/-- `Feature.overlaps`.  The early-`return` chain of the source is a
disjunction of its three conditions. -/
def Feature.overlaps (self other : Feature) : Prop :=
  let f1 := if self.center < other.center then self else other
  let f2 := if self.center < other.center then other else self
  (f1.across_zero ∧ f2.across_zero) ∨
    ((f1.across_zero ∨ f2.across_zero) ∧ f1.start < f2.stop) ∨
    f1.stop > f2.start

/-- The `left` flag computed inside `Feature.turn_vector`: start from
`snapshot_feature.center < self.center`, flip it when the absolute center
difference exceeds pi, flip it again when `self.width` exceeds pi. -/
def Feature.turn_left (self snapshot_feature : Feature) : Prop :=
  let left : Prop := snapshot_feature.center < self.center
  let left : Prop := if |snapshot_feature.center - self.center| > π then ¬left else left
  if self.width > π then ¬left else left

/-- `Feature.turn_vector`. -/
def Feature.turn_vector (self snapshot_feature : Feature) : Vector :=
  if snapshot_feature.center = self.center then ⟨0, 0⟩
  else if self.turn_left snapshot_feature then
    ⟨Real.cos (self.center + π / 2), Real.sin (self.center + π / 2)⟩
  else
    ⟨Real.cos (self.center - π / 2), Real.sin (self.center - π / 2)⟩

/-- `Feature.approach_vector`: `vec + vec + vec` of the unit vector toward
(when the snapshot feature is wider) or away from the feature center. -/
def Feature.approach_vector (self snapshot_feature : Feature) : Vector :=
  if snapshot_feature.width = self.width then ⟨0, 0⟩
  else if snapshot_feature.width > self.width then
    let vec : Vector := ⟨Real.cos self.center, Real.sin self.center⟩
    vec + vec + vec
  else
    let vec : Vector := ⟨Real.cos (self.center + π), Real.sin (self.center + π)⟩
    vec + vec + vec

/-- A retina (`class Retina`): the observer position plus the dark and white
features. -/
structure Retina where
  position : Vector
  dark_features : List Feature
  white_features : List Feature

/-- The dark-feature loop of `Retina.__init__`: one feature per landmark, in
order, propagating a `math.asin` domain error. -/
def darkFeaturesOf (position : Vector) : List Landmark → Option (List Feature)
  | [] => some []
  | l :: ls => do
    let f ← Feature.from_position_and_landmark position l
    let fs ← darkFeaturesOf position ls
    pure (f :: fs)

/-- `Retina.__init__`: dark features sorted by center (Python `list.sort` is
a stable sort, modelled by the stable `List.insertionSort`), then one white
feature for every circularly adjacent pair of sorted dark features that does
not overlap (`if f1.overlaps(f2): continue`).  The pairs
`(darks[i], darks[(i+1) % n])` for `i in range(n)` are exactly
`darks.zip (darks.rotate 1)`. -/
def Retina.build (position : Vector) (landmarks : List Landmark) : Option Retina := do
  let darks ← darkFeaturesOf position landmarks
  let sorted := List.insertionSort (fun f g : Feature => f.center ≤ g.center) darks
  let whites := (sorted.zip (sorted.rotate 1)).filterMap fun fs =>
    if fs.1.overlaps fs.2 then none else some (Feature.mk fs.1.stop fs.2.start)
  pure (Retina.mk position sorted whites)

/-- One loop of `Retina.homing_vector`: match every snapshot feature to its
closest counterpart among `candidates` and accumulate that counterpart's turn
and approach vectors.  (The source also computes
`feature.turn_vector(mapped_feature)` on line 304/310 and discards the
result; a discarded pure value has no effect and is not modelled.) -/
def homingLoop (candidates : List Feature) : List Feature → Vector → Option Vector
  | [], v => some v
  | sf :: rest, v => do
    let mapped ← sf.find_closest candidates
    homingLoop candidates rest (v + mapped.turn_vector sf + mapped.approach_vector sf)

/-- `Retina.homing_vector`: `self` is the current retina, `snapshot` the
stored one. -/
def Retina.homing_vector (self snapshot : Retina) : Option Vector := do
  let v ← homingLoop self.dark_features snapshot.dark_features ⟨0, 0⟩
  let v2 ← homingLoop self.white_features snapshot.white_features v
  pure v2.normalize

/-- Spec-side notion: membership of an angle in the open circular arc of a
feature. -/
def memOpenArc (x : ℝ) (f : Feature) : Prop :=
  if f.across_zero then f.start < x ∨ x < f.stop else f.start < x ∧ x < f.stop

/-- Spec-side notion: the open arcs of two features intersect somewhere on
the circle. -/
def arcsIntersect (f g : Feature) : Prop :=
  ∃ x, 0 ≤ x ∧ x < 2 * π ∧ memOpenArc x f ∧ memOpenArc x g

/-- Spec-side notion: the true circular distance between two angles taken
from `[0, 2*pi)`. -/
def circDist (a b : ℝ) : ℝ := min |a - b| (2 * π - |a - b|)

/-- Modelled from the claim wording for C3: a turn vector whose left/right
orientation is decided solely by the shorter angular direction from
`self.center` to `snapshot_feature.center` (the decision flips exactly when
the absolute center difference exceeds pi, and depends on nothing else). -/
def turn_vector_claimed (self snapshot_feature : Feature) : Vector :=
  if snapshot_feature.center = self.center then ⟨0, 0⟩
  else if Xor' (snapshot_feature.center < self.center)
      (|snapshot_feature.center - self.center| > π) then
    ⟨Real.cos (self.center + π / 2), Real.sin (self.center + π / 2)⟩
  else
    ⟨Real.cos (self.center - π / 2), Real.sin (self.center - π / 2)⟩

/-! ### Basic helper lemmas -/

theorem Vector.sub_def (a b : Vector) : a - b = ⟨a.x - b.x, a.y - b.y⟩ := rfl

theorem Vector.add_def (a b : Vector) : a + b = ⟨a.x + b.x, a.y + b.y⟩ := rfl

theorem Vector.add_zero_vec (a : Vector) : a + ⟨0, 0⟩ = a := by
  cases a; simp [Vector.add_def]

theorem two_pi_pos : (0 : ℝ) < 2 * π := by positivity

theorem mod2pi_eq_fract (x : ℝ) : mod2pi x = 2 * π * Int.fract (x / (2 * π)) := by
  have h : 2 * π * (x / (2 * π)) = x := by
    field_simp
  rw [mod2pi, Int.fract, mul_sub, h]

theorem mod2pi_nonneg (x : ℝ) : 0 ≤ mod2pi x := by
  rw [mod2pi_eq_fract]
  have := Int.fract_nonneg (x / (2 * π))
  positivity

theorem mod2pi_lt_two_pi (x : ℝ) : mod2pi x < 2 * π := by
  rw [mod2pi_eq_fract]
  have h := Int.fract_lt_one (x / (2 * π))
  nlinarith [two_pi_pos]

theorem mod2pi_eq_self {x : ℝ} (h0 : 0 ≤ x) (h1 : x < 2 * π) : mod2pi x = x := by
  have hfl : ⌊x / (2 * π)⌋ = 0 := by
    rw [Int.floor_eq_zero_iff]
    constructor
    · positivity
    · rw [div_lt_one two_pi_pos] at *
      exact h1
  simp [mod2pi, hfl]

theorem mod2pi_eq_sub {x : ℝ} (h0 : 2 * π ≤ x) (h1 : x < 4 * π) : mod2pi x = x - 2 * π := by
  have hfl : ⌊x / (2 * π)⌋ = 1 := by
    have h2 : (1 : ℝ) ≤ x / (2 * π) := (le_div_iff₀ two_pi_pos).2 (by linarith)
    have h3 : x / (2 * π) < 2 := (div_lt_iff₀ two_pi_pos).2 (by linarith)
    rw [Int.floor_eq_iff]
    constructor
    · exact_mod_cast h2
    · push_cast
      linarith
  rw [mod2pi, hfl]
  push_cast
  ring

theorem Feature.center_nonneg (f : Feature) : 0 ≤ f.center := mod2pi_nonneg _

theorem Feature.center_lt_two_pi (f : Feature) : f.center < 2 * π := mod2pi_lt_two_pi _

/-- For a non-wrapping feature, the quantity fed to the modulo in `center`
is the ordinary midpoint of start and stop. -/
theorem Feature.center_of_not_across (f : Feature) (h : ¬f.across_zero) :
    f.center = mod2pi ((f.start + f.stop) / 2) := by
  rw [Feature.center, Feature.width, if_neg h]
  ring_nf

/-- For a wrapping feature, `center` is the midpoint shifted by pi, then
reduced. -/
theorem Feature.center_of_across (f : Feature) (h : f.across_zero) :
    f.center = mod2pi ((f.start + f.stop) / 2 + π) := by
  rw [Feature.center, Feature.width, if_pos h]
  ring_nf

/-- For an in-range non-wrapping feature the center is the plain midpoint. -/
theorem Feature.center_midpoint (f : Feature) (h : ¬f.across_zero)
    (h0 : 0 ≤ f.start) (h1 : f.start < 2 * π) (h2 : 0 ≤ f.stop) (h3 : f.stop < 2 * π) :
    f.center = (f.start + f.stop) / 2 := by
  rw [Feature.center_of_not_across f h]
  exact mod2pi_eq_self (by linarith) (by linarith)

theorem Vector.direction_nonneg (v : Vector) : 0 ≤ v.direction := by
  rw [Vector.direction]
  by_cases h : atan2 v.y v.x < 0
  · rw [if_pos h]
    have := Complex.neg_pi_lt_arg (⟨v.x, v.y⟩ : ℂ)
    rw [atan2] at *
    nlinarith [Real.pi_pos]
  · rw [if_neg h]
    linarith [not_lt.mp h]

theorem Vector.direction_lt_two_pi (v : Vector) : v.direction < 2 * π := by
  rw [Vector.direction]
  have hle := Complex.arg_le_pi (⟨v.x, v.y⟩ : ℂ)
  by_cases h : atan2 v.y v.x < 0
  · rw [if_pos h]
    linarith [Real.pi_pos]
  · rw [if_neg h]
    rw [atan2]
    nlinarith [Real.pi_pos]

/-! ### Dark-feature construction -/

/-- Evaluation of `Feature.from_position_and_landmark` when the observer is
away from the landmark center and the `asin` argument is in range. -/
theorem from_position_eval (p : Vector) (l : Landmark)
    (hne : (l.position - p).abs ≠ 0)
    (h1 : -1 ≤ l.radius / (l.position - p).abs)
    (h2 : l.radius / (l.position - p).abs ≤ 1) :
    Feature.from_position_and_landmark p l =
      some ⟨(if (l.position - p).direction - Real.arcsin (l.radius / (l.position - p).abs) < 0
             then (l.position - p).direction - Real.arcsin (l.radius / (l.position - p).abs) + 2 * π
             else (l.position - p).direction - Real.arcsin (l.radius / (l.position - p).abs)),
            mod2pi ((l.position - p).direction + Real.arcsin (l.radius / (l.position - p).abs))⟩ := by
  rw [Feature.from_position_and_landmark]
  simp only [if_pos hne, asin, if_pos (And.intro h1 h2), Option.bind_eq_bind,
    Option.some_bind]
  rfl

/-- Evaluation of `Feature.from_position_and_landmark` when the observer
coincides with the landmark center: the degenerate point feature `⟨0, 0⟩`. -/
theorem from_position_degenerate (p : Vector) (l : Landmark) (h : p = l.position) :
    Feature.from_position_and_landmark p l = some ⟨0, 0⟩ := by
  have hv : l.position - p = ⟨0, 0⟩ := by
    rw [h, Vector.sub_def]
    simp
  have habs : (l.position - p).abs = 0 := by
    rw [hv, Vector.abs]
    simp
  have hdir : (l.position - p).direction = 0 := by
    rw [hv, Vector.direction]
    have harg : atan2 (0 : ℝ) (0 : ℝ) = 0 := by
      rw [atan2]
      have : (⟨0, 0⟩ : ℂ) = 0 := by
        apply Complex.ext <;> simp
      rw [this, Complex.arg_zero]
    simp [harg]
  rw [Feature.from_position_and_landmark]
  simp only [habs, ne_eq, not_true_eq_false, if_false, Option.bind_eq_bind, Option.some_bind,
    hdir]
  have hmod : mod2pi 0 = 0 := mod2pi_eq_self le_rfl two_pi_pos
  simp [hmod]

/-- The main specification of the dark feature built for a landmark strictly
outside of which the observer stands: construction succeeds, both angles lie
in `[0, 2*pi)`, and the width is exactly `2 * arcsin(radius / distance)`,
which lies in `(0, pi)`. -/
theorem from_position_spec (p : Vector) (l : Landmark) (hd : 0 < l.diameter)
    (hout : l.radius < (l.position - p).abs) :
    ∃ f, Feature.from_position_and_landmark p l = some f ∧
      0 ≤ f.start ∧ f.start < 2 * π ∧ 0 ≤ f.stop ∧ f.stop < 2 * π ∧
      f.width = 2 * Real.arcsin (l.radius / (l.position - p).abs) ∧
      0 < f.width ∧ f.width < π := by
  have hr : 0 < l.radius := by
    rw [Landmark.radius]
    linarith
  have hdist : 0 < (l.position - p).abs := lt_trans hr hout
  have hne : (l.position - p).abs ≠ 0 := ne_of_gt hdist
  have hratio0 : 0 < l.radius / (l.position - p).abs := div_pos hr hdist
  have hratio1 : l.radius / (l.position - p).abs < 1 := (div_lt_one hdist).2 hout
  set a := Real.arcsin (l.radius / (l.position - p).abs) with ha
  have ha0 : 0 < a := Real.arcsin_pos.2 hratio0
  have ha1 : a < π / 2 := Real.arcsin_lt_pi_div_two.2 hratio1
  set dir := (l.position - p).direction with hdir
  have hd0 : 0 ≤ dir := Vector.direction_nonneg _
  have hd1 : dir < 2 * π := Vector.direction_lt_two_pi _
  have heval := from_position_eval p l hne (le_of_lt (lt_trans (by linarith [Real.pi_pos]) hratio0))
    (le_of_lt hratio1)
  rw [← ha, ← hdir] at heval
  have hpi := Real.pi_pos
  by_cases hs : dir - a < 0
  · -- start is folded up by `2*pi`; the stop does not wrap
    have hstop : mod2pi (dir + a) = dir + a := by
      apply mod2pi_eq_self (by linarith)
      linarith
    have hacross : (Feature.mk (dir - a + 2 * π) (dir + a)).across_zero := by
      show (dir + a) < (dir - a + 2 * π)
      linarith
    have hw : (Feature.mk (dir - a + 2 * π) (dir + a)).width = 2 * a := by
      rw [Feature.width, if_pos hacross]
      show dir + a - (dir - a + 2 * π) + 2 * π = 2 * a
      ring
    refine ⟨⟨dir - a + 2 * π, dir + a⟩, ?_, ?_, ?_, ?_, ?_, ?_, ?_, ?_⟩
    · rw [heval, if_pos hs, hstop]
    · show 0 ≤ dir - a + 2 * π
      linarith
    · show dir - a + 2 * π < 2 * π
      linarith
    · show 0 ≤ dir + a
      linarith
    · show dir + a < 2 * π
      linarith
    · rw [hw]
    · rw [hw]
      linarith
    · rw [hw]
      linarith
  · push_neg at hs
    by_cases he : dir + a < 2 * π
    · have hstop : mod2pi (dir + a) = dir + a := mod2pi_eq_self (by linarith) he
      have hacross : ¬(Feature.mk (dir - a) (dir + a)).across_zero := by
        show ¬(dir - a > dir + a)
        push_neg
        linarith
      have hw : (Feature.mk (dir - a) (dir + a)).width = 2 * a := by
        rw [Feature.width, if_neg hacross]
        show dir + a - (dir - a) = 2 * a
        ring
      refine ⟨⟨dir - a, dir + a⟩, ?_, ?_, ?_, ?_, ?_, ?_, ?_, ?_⟩
      · rw [heval, if_neg (not_lt.2 hs), hstop]
      · show 0 ≤ dir - a
        linarith
      · show dir - a < 2 * π
        linarith
      · show 0 ≤ dir + a
        linarith
      · show dir + a < 2 * π
        linarith
      · rw [hw]
      · rw [hw]
        linarith
      · rw [hw]
        linarith
    · push_neg at he
      have hstop : mod2pi (dir + a) = dir + a - 2 * π := mod2pi_eq_sub he (by linarith)
      have hacross : (Feature.mk (dir - a) (dir + a - 2 * π)).across_zero := by
        show (dir - a) > (dir + a - 2 * π)
        linarith
      have hw : (Feature.mk (dir - a) (dir + a - 2 * π)).width = 2 * a := by
        rw [Feature.width, if_pos hacross]
        show dir + a - 2 * π - (dir - a) + 2 * π = 2 * a
        ring
      refine ⟨⟨dir - a, dir + a - 2 * π⟩, ?_, ?_, ?_, ?_, ?_, ?_, ?_, ?_⟩
      · rw [heval, if_neg (not_lt.2 hs), hstop]
      · show 0 ≤ dir - a
        linarith
      · show dir - a < 2 * π
        linarith
      · show 0 ≤ dir + a - 2 * π
        linarith
      · show dir + a - 2 * π < 2 * π
        linarith
      · rw [hw]
      · rw [hw]
        linarith
      · rw [hw]
        linarith

/-! ### Overlap lemmas -/

/-- A feature overlaps itself exactly when its two boundary angles differ. -/
theorem overlaps_self_iff (f : Feature) : f.overlaps f ↔ f.start ≠ f.stop := by
  simp only [Feature.overlaps, if_neg (lt_irrefl f.center), Feature.across_zero]
  constructor
  · rintro (⟨h, -⟩ | ⟨-, h⟩ | h)
    · exact ne_of_gt h
    · exact ne_of_lt h
    · exact ne_of_lt h
  · intro h
    rcases lt_or_gt_of_ne h with h' | h'
    · exact Or.inr (Or.inr h')
    · exact Or.inl ⟨h', h'⟩

theorem arcsIntersect_comm (f g : Feature) : arcsIntersect f g ↔ arcsIntersect g f := by
  unfold arcsIntersect
  constructor <;> rintro ⟨x, h1, h2, h3, h4⟩ <;> exact ⟨x, h1, h2, h4, h3⟩

/-- The condition chain of `Feature.overlaps`, after the two features have
been arranged by ascending center, holds exactly when the two open arcs
intersect — provided both features are in range and have positive width. -/
theorem overlaps_core_iff (p q : Feature)
    (hp1 : 0 ≤ p.start) (hp2 : p.start < 2 * π) (hp3 : 0 ≤ p.stop) (hp4 : p.stop < 2 * π)
    (hq1 : 0 ≤ q.start) (hq2 : q.start < 2 * π) (hq3 : 0 ≤ q.stop) (hq4 : q.stop < 2 * π)
    (hwp : 0 < p.width) (hwq : 0 < q.width) (hc : p.center ≤ q.center) :
    ((p.across_zero ∧ q.across_zero) ∨
      ((p.across_zero ∨ q.across_zero) ∧ p.start < q.stop) ∨ p.stop > q.start) ↔
    arcsIntersect p q := by
  have hpi := Real.pi_pos
  by_cases hp : p.across_zero <;> by_cases hq : q.across_zero
  · -- both features wrap the zero point: both contain angles just below 2*pi
    constructor
    · intro _
      have hm0 : 0 ≤ max p.start q.start := le_trans hp1 (le_max_left _ _)
      have hm1 : max p.start q.start < 2 * π := max_lt hp2 hq2
      refine ⟨(max p.start q.start + 2 * π) / 2, by linarith, by linarith, ?_, ?_⟩
      · simp only [memOpenArc, if_pos hp]
        left
        have := le_max_left p.start q.start
        linarith
      · simp only [memOpenArc, if_pos hq]
        left
        have := le_max_right p.start q.start
        linarith
    · intro _
      exact Or.inl ⟨hp, hq⟩
  · -- p wraps, q does not
    have hq' : q.start < q.stop := by
      rw [Feature.width, if_neg hq] at hwq
      linarith
    constructor
    · rintro (⟨-, h⟩ | ⟨-, h⟩ | h)
      · exact absurd h hq
      · -- p.start < q.stop
        have hmax : max p.start q.start < q.stop := max_lt h hq'
        refine ⟨(max p.start q.start + q.stop) / 2, ?_, ?_, ?_, ?_⟩
        · have : 0 ≤ max p.start q.start := le_trans hp1 (le_max_left _ _)
          linarith
        · linarith
        · simp only [memOpenArc, if_pos hp]
          left
          have := le_max_left p.start q.start
          linarith
        · simp only [memOpenArc, if_neg hq]
          have := le_max_right p.start q.start
          constructor <;> linarith
      · -- q.start < p.stop
        have hmin : q.start < min p.stop q.stop := lt_min h hq'
        refine ⟨(q.start + min p.stop q.stop) / 2, by linarith, ?_, ?_, ?_⟩
        · have := min_le_right p.stop q.stop
          linarith
        · simp only [memOpenArc, if_pos hp]
          right
          have := min_le_left p.stop q.stop
          linarith
        · simp only [memOpenArc, if_neg hq]
          have := min_le_right p.stop q.stop
          constructor <;> linarith
    · rintro ⟨x, hx0, hx2, hxp, hxq⟩
      simp only [memOpenArc, if_pos hp] at hxp
      simp only [memOpenArc, if_neg hq] at hxq
      rcases hxp with h | h
      · exact Or.inr (Or.inl ⟨Or.inl hp, by linarith [hxq.2]⟩)
      · exact Or.inr (Or.inr (by linarith [hxq.1]))
  · -- q wraps, p does not
    have hp' : p.start < p.stop := by
      rw [Feature.width, if_neg hp] at hwp
      linarith
    constructor
    · rintro (⟨h, -⟩ | ⟨-, h⟩ | h)
      · exact absurd h hp
      · -- p.start < q.stop
        have hmin : p.start < min p.stop q.stop := lt_min hp' h
        refine ⟨(p.start + min p.stop q.stop) / 2, by linarith, ?_, ?_, ?_⟩
        · have := min_le_left p.stop q.stop
          linarith
        · simp only [memOpenArc, if_neg hp]
          have := min_le_left p.stop q.stop
          constructor <;> linarith
        · simp only [memOpenArc, if_pos hq]
          right
          have := min_le_right p.stop q.stop
          linarith
      · -- q.start < p.stop
        have hmax : max p.start q.start < p.stop := max_lt hp' h
        refine ⟨(max p.start q.start + p.stop) / 2, ?_, by linarith, ?_, ?_⟩
        · have : 0 ≤ max p.start q.start := le_trans hp1 (le_max_left _ _)
          linarith
        · simp only [memOpenArc, if_neg hp]
          have := le_max_left p.start q.start
          constructor <;> linarith
        · simp only [memOpenArc, if_pos hq]
          left
          have := le_max_right p.start q.start
          linarith
    · rintro ⟨x, hx0, hx2, hxp, hxq⟩
      simp only [memOpenArc, if_neg hp] at hxp
      simp only [memOpenArc, if_pos hq] at hxq
      rcases hxq with h | h
      · exact Or.inr (Or.inr (by linarith [hxp.2]))
      · exact Or.inr (Or.inl ⟨Or.inr hq, by linarith [hxp.1]⟩)
  · -- neither wraps: plain interval intersection, using the center order
    have hp' : p.start < p.stop := by
      rw [Feature.width, if_neg hp] at hwp
      linarith
    have hq' : q.start < q.stop := by
      rw [Feature.width, if_neg hq] at hwq
      linarith
    have hcp : p.center = (p.start + p.stop) / 2 :=
      Feature.center_midpoint p hp hp1 hp2 hp3 hp4
    have hcq : q.center = (q.start + q.stop) / 2 :=
      Feature.center_midpoint q hq hq1 hq2 hq3 hq4
    rw [hcp, hcq] at hc
    constructor
    · rintro (⟨h, -⟩ | ⟨h | h, -⟩ | h)
      · exact absurd h hp
      · exact absurd h hp
      · exact absurd h hq
      · -- q.start < p.stop, and the center order yields p.start < q.stop
        have h2 : p.start < q.stop := by linarith
        have hmax : max p.start q.start < min p.stop q.stop :=
          max_lt (lt_min hp' h2) (lt_min h hq')
        refine ⟨(max p.start q.start + min p.stop q.stop) / 2, ?_, ?_, ?_, ?_⟩
        · have : 0 ≤ max p.start q.start := le_trans hp1 (le_max_left _ _)
          linarith
        · have h3 := min_le_left p.stop q.stop
          linarith
        · simp only [memOpenArc, if_neg hp]
          have h4 := le_max_left p.start q.start
          have h5 := min_le_left p.stop q.stop
          constructor <;> linarith
        · simp only [memOpenArc, if_neg hq]
          have h4 := le_max_right p.start q.start
          have h5 := min_le_right p.stop q.stop
          constructor <;> linarith
    · rintro ⟨x, hx0, hx2, hxp, hxq⟩
      simp only [memOpenArc, if_neg hp] at hxp
      simp only [memOpenArc, if_neg hq] at hxq
      exact Or.inr (Or.inr (by linarith [hxq.1, hxp.2]))

/-- `Feature.overlaps` agrees with open-arc intersection for in-range
positive-width features. -/
theorem overlaps_iff_arcsIntersect (f g : Feature)
    (hf1 : 0 ≤ f.start) (hf2 : f.start < 2 * π) (hf3 : 0 ≤ f.stop) (hf4 : f.stop < 2 * π)
    (hg1 : 0 ≤ g.start) (hg2 : g.start < 2 * π) (hg3 : 0 ≤ g.stop) (hg4 : g.stop < 2 * π)
    (hwf : 0 < f.width) (hwg : 0 < g.width) :
    (f.overlaps g ↔ arcsIntersect f g) := by
  by_cases h : f.center < g.center
  · rw [Feature.overlaps]
    simp only [if_pos h]
    exact overlaps_core_iff f g hf1 hf2 hf3 hf4 hg1 hg2 hg3 hg4 hwf hwg (le_of_lt h)
  · rw [Feature.overlaps]
    simp only [if_neg h]
    rw [arcsIntersect_comm]
    exact overlaps_core_iff g f hg1 hg2 hg3 hg4 hf1 hf2 hf3 hf4 hwg hwf (not_lt.mp h)

/-- With equal centers, an in-range wrapping feature `p` and an in-range
non-wrapping feature `q` always satisfy both orientations of the overlap
condition chain. -/
theorem core_one_wrap (p q : Feature)
    (hp1 : 0 ≤ p.start) (hp2 : p.start < 2 * π) (hp3 : 0 ≤ p.stop) (hp4 : p.stop < 2 * π)
    (hq1 : 0 ≤ q.start) (hq2 : q.start < 2 * π) (hq3 : 0 ≤ q.stop) (hq4 : q.stop < 2 * π)
    (hp : p.across_zero) (hq : ¬q.across_zero) (hc : p.center = q.center) :
    (((p.across_zero ∧ q.across_zero) ∨
        ((p.across_zero ∨ q.across_zero) ∧ p.start < q.stop) ∨ p.stop > q.start) ∧
      ((q.across_zero ∧ p.across_zero) ∨
        ((q.across_zero ∨ p.across_zero) ∧ q.start < p.stop) ∨ q.stop > p.start)) := by
  have hpi := Real.pi_pos
  have hcq : q.center = (q.start + q.stop) / 2 :=
    Feature.center_midpoint q hq hq1 hq2 hq3 hq4
  have hcp : p.center = mod2pi ((p.start + p.stop) / 2 + π) := Feature.center_of_across p hp
  by_cases hS : p.start + p.stop < 2 * π
  · have hcp' : p.center = (p.start + p.stop) / 2 + π := by
      rw [hcp]
      exact mod2pi_eq_self (by linarith) (by linarith)
    have hsum : q.start + q.stop = p.start + p.stop + 2 * π := by
      rw [hcp', hcq] at hc
      linarith
    have key : p.start < q.stop := by linarith
    exact ⟨Or.inr (Or.inl ⟨Or.inl hp, key⟩), Or.inr (Or.inr key)⟩
  · push_neg at hS
    have hcp' : p.center = (p.start + p.stop) / 2 - π := by
      rw [hcp, mod2pi_eq_sub (by linarith) (by linarith)]
      ring
    have hsum : q.start + q.stop = p.start + p.stop - 2 * π := by
      rw [hcp', hcq] at hc
      linarith
    have key : q.start < p.stop := by linarith
    exact ⟨Or.inr (Or.inr key), Or.inr (Or.inl ⟨Or.inr hp, key⟩)⟩

/-- The overlap condition chain is symmetric for in-range features with
equal centers. -/
theorem core_center_eq_iff (p q : Feature)
    (hp1 : 0 ≤ p.start) (hp2 : p.start < 2 * π) (hp3 : 0 ≤ p.stop) (hp4 : p.stop < 2 * π)
    (hq1 : 0 ≤ q.start) (hq2 : q.start < 2 * π) (hq3 : 0 ≤ q.stop) (hq4 : q.stop < 2 * π)
    (hc : p.center = q.center) :
    (((p.across_zero ∧ q.across_zero) ∨
        ((p.across_zero ∨ q.across_zero) ∧ p.start < q.stop) ∨ p.stop > q.start) ↔
      ((q.across_zero ∧ p.across_zero) ∨
        ((q.across_zero ∨ p.across_zero) ∧ q.start < p.stop) ∨ q.stop > p.start)) := by
  by_cases hp : p.across_zero <;> by_cases hq : q.across_zero
  · exact ⟨fun _ => Or.inl ⟨hq, hp⟩, fun _ => Or.inl ⟨hp, hq⟩⟩
  · have h := core_one_wrap p q hp1 hp2 hp3 hp4 hq1 hq2 hq3 hq4 hp hq hc
    exact ⟨fun _ => h.2, fun _ => h.1⟩
  · have h := core_one_wrap q p hq1 hq2 hq3 hq4 hp1 hp2 hp3 hp4 hq hp hc.symm
    exact ⟨fun _ => h.1, fun _ => h.2⟩
  · have hcp : p.center = (p.start + p.stop) / 2 :=
      Feature.center_midpoint p hp hp1 hp2 hp3 hp4
    have hcq : q.center = (q.start + q.stop) / 2 :=
      Feature.center_midpoint q hq hq1 hq2 hq3 hq4
    rw [hcp, hcq] at hc
    constructor
    · rintro (⟨h, -⟩ | ⟨h | h, -⟩ | h)
      · exact absurd h hp
      · exact absurd h hp
      · exact absurd h hq
      · exact Or.inr (Or.inr (by linarith))
    · rintro (⟨h, -⟩ | ⟨h | h, -⟩ | h)
      · exact absurd h hq
      · exact absurd h hq
      · exact absurd h hp
      · exact Or.inr (Or.inr (by linarith))

/-! ### Lemmas about the distance proxy and `find_closest` -/

theorem abs_center_sub_lt_two_pi (a b : Feature) : |a.center - b.center| < 2 * π := by
  have h1 := a.center_nonneg
  have h2 := a.center_lt_two_pi
  have h3 := b.center_nonneg
  have h4 := b.center_lt_two_pi
  rw [abs_sub_lt_iff]
  constructor <;> linarith

theorem distProxy_nonneg (a b : Feature) : 0 ≤ distProxy a b := by
  rw [distProxy]
  apply Real.sin_nonneg_of_nonneg_of_le_pi
  · positivity
  · have := abs_center_sub_lt_two_pi a b
    linarith

theorem distProxy_self_eq_zero (a b : Feature) (h : a.center = b.center) :
    distProxy a b = 0 := by
  rw [distProxy, h]
  simp

theorem distProxy_pos (a b : Feature) (h : a.center ≠ b.center) : 0 < distProxy a b := by
  rw [distProxy]
  apply Real.sin_pos_of_pos_of_lt_pi
  · have : 0 < |a.center - b.center| := abs_pos.2 (sub_ne_zero.2 h)
    linarith
  · have := abs_center_sub_lt_two_pi a b
    linarith

theorem circDist_nonneg (a b : Feature) : 0 ≤ circDist a.center b.center := by
  rw [circDist]
  have := abs_center_sub_lt_two_pi a b
  have h0 : (0 : ℝ) ≤ |a.center - b.center| := abs_nonneg _
  rcases min_cases (|a.center - b.center|) (2 * π - |a.center - b.center|) with ⟨h, -⟩ | ⟨h, -⟩ <;>
    rw [h] <;> linarith

theorem circDist_le_pi (a b : Feature) : circDist a.center b.center ≤ π := by
  rw [circDist]
  rcases le_total (|a.center - b.center|) π with h | h
  · exact le_trans (min_le_left _ _) h
  · exact le_trans (min_le_right _ _) (by linarith)

/-- The proxy `sin(|Δcenter|/2)` equals the sine of half the true circular
distance. -/
theorem distProxy_eq_sin_circDist (a b : Feature) :
    distProxy a b = Real.sin (circDist a.center b.center / 2) := by
  rw [distProxy, circDist]
  rcases le_total (|a.center - b.center|) (2 * π - |a.center - b.center|) with h | h
  · rw [min_eq_left h]
  · rw [min_eq_right h]
    have : (2 * π - |a.center - b.center|) / 2 = π - |a.center - b.center| / 2 := by ring
    rw [this, Real.sin_pi_sub]

/-- Comparing proxies is the same as comparing true circular distances. -/
theorem distProxy_le_iff (f g h : Feature) :
    distProxy f g ≤ distProxy f h ↔
      circDist f.center g.center ≤ circDist f.center h.center := by
  rw [distProxy_eq_sin_circDist, distProxy_eq_sin_circDist]
  have hpi := Real.pi_pos
  have hg0 := circDist_nonneg f g
  have hg1 := circDist_le_pi f g
  have hh0 := circDist_nonneg f h
  have hh1 := circDist_le_pi f h
  have hmem1 : circDist f.center g.center / 2 ∈ Set.Icc (-(π / 2)) (π / 2) := by
    constructor <;> linarith
  have hmem2 : circDist f.center h.center / 2 ∈ Set.Icc (-(π / 2)) (π / 2) := by
    constructor <;> linarith
  rw [Real.strictMonoOn_sin.le_iff_le hmem1 hmem2]
  constructor <;> intro <;> linarith

/-- If the accumulator is already no worse than every remaining candidate,
the `find_closest` loop keeps it. -/
theorem findClosestAux_acc_min (self : Feature) :
    ∀ (l : List Feature) (acc : Feature),
      (∀ g ∈ l, distProxy self acc ≤ distProxy self g) →
      findClosestAux self l acc = acc := by
  intro l
  induction l with
  | nil => intro acc _; rfl
  | cons f rest ih =>
    intro acc hacc
    rw [findClosestAux, if_neg (not_lt.2 (hacc f (List.mem_cons_self f rest)))]
    exact ih acc fun g hg => hacc g (List.mem_cons_of_mem f hg)

/-- Full characterisation of the `find_closest` loop: the result is either
the starting accumulator (when no candidate beats it strictly), or the first
candidate that achieves the strict minimum. -/
theorem findClosestAux_spec (self : Feature) :
    ∀ (l : List Feature) (acc : Feature),
      (findClosestAux self l acc = acc ∧ ∀ g ∈ l, distProxy self acc ≤ distProxy self g) ∨
      (∃ l1 m l2, l = l1 ++ m :: l2 ∧ findClosestAux self l acc = m ∧
        distProxy self m < distProxy self acc ∧
        (∀ g ∈ l1, distProxy self m < distProxy self g) ∧
        (∀ g ∈ l2, distProxy self m ≤ distProxy self g)) := by
  intro l
  induction l with
  | nil =>
    intro acc
    left
    exact ⟨rfl, by simp⟩
  | cons f rest ih =>
    intro acc
    by_cases hcond : distProxy self acc > distProxy self f
    · rw [findClosestAux, if_pos hcond]
      rcases ih f with ⟨heq, hmin⟩ | ⟨l1, m, l2, hdec, heq, hlt, hbefore, hafter⟩
      · right
        exact ⟨[], f, rest, rfl, heq, hcond, by simp, hmin⟩
      · right
        refine ⟨f :: l1, m, l2, by simp [hdec], heq, lt_trans hlt hcond, ?_, hafter⟩
        intro g hg
        rcases List.mem_cons.1 hg with rfl | hg'
        · exact hlt
        · exact hbefore g hg'
    · rw [findClosestAux, if_neg hcond]
      push_neg at hcond
      rcases ih acc with ⟨heq, hmin⟩ | ⟨l1, m, l2, hdec, heq, hlt, hbefore, hafter⟩
      · left
        refine ⟨heq, fun g hg => ?_⟩
        rcases List.mem_cons.1 hg with rfl | hg'
        · exact hcond
        · exact hmin g hg'
      · right
        refine ⟨f :: l1, m, l2, by simp [hdec], heq, hlt, ?_, hafter⟩
        intro g hg
        rcases List.mem_cons.1 hg with rfl | hg'
        · exact lt_of_lt_of_le hlt hcond
        · exact hbefore g hg'

/-- `find_closest` on a non-empty list returns the first candidate that
attains the minimum of the distance proxy. -/
theorem find_closest_first_min (f : Feature) (l : List Feature) (hl : l ≠ []) :
    ∃ l1 m l2, l = l1 ++ m :: l2 ∧ f.find_closest l = some m ∧
      (∀ g ∈ l, distProxy f m ≤ distProxy f g) ∧
      (∀ g ∈ l1, distProxy f m < distProxy f g) := by
  cases l with
  | nil => exact absurd rfl hl
  | cons c rest =>
    rw [Feature.find_closest]
    rcases findClosestAux_spec f rest c with ⟨heq, hmin⟩ | ⟨l1, m, l2, hdec, heq, hlt, hb, ha⟩
    · refine ⟨[], c, rest, rfl, by rw [heq], ?_, by simp⟩
      intro g hg
      rcases List.mem_cons.1 hg with rfl | hg'
      · exact le_refl _
      · exact hmin g hg'
    · refine ⟨c :: l1, m, l2, by simp [hdec], by rw [heq], ?_, ?_⟩
      · intro g hg
        rcases List.mem_cons.1 hg with rfl | hg'
        · exact le_of_lt hlt
        · rw [hdec] at hg'
          rcases List.mem_append.1 hg' with hg1 | hg2
          · exact le_of_lt (hb g hg1)
          · rcases List.mem_cons.1 hg2 with rfl | hg3
            · exact le_refl _
            · exact ha g hg3
      · intro g hg
        rcases List.mem_cons.1 hg with rfl | hg'
        · exact hlt
        · exact hb g hg'

/-- Once the loop reaches a candidate with the same center as `f` — and every
earlier accumulator has a distinct center — it settles on `f`. -/
theorem findClosestAux_reaches_self (f : Feature) :
    ∀ (l : List Feature) (acc : Feature), f ∈ l → 0 < distProxy f acc →
      (∀ g ∈ l, g.center = f.center → g = f) →
      findClosestAux f l acc = f := by
  intro l
  induction l with
  | nil => intro acc hf _ _; cases hf
  | cons g t ih =>
    intro acc hf hacc huniq
    by_cases hgc : g.center = f.center
    · have hgf : g = f := huniq g (List.mem_cons_self g t) hgc
      rw [findClosestAux, hgf, if_pos (by rw [distProxy_self_eq_zero f f rfl]; exact hacc)]
      exact findClosestAux_acc_min f t f fun h hh => by
        rw [distProxy_self_eq_zero f f rfl]
        exact distProxy_nonneg f h
    · have hf' : f ∈ t := by
        rcases List.mem_cons.1 hf with rfl | h
        · exact absurd rfl hgc
        · exact h
      have hgpos : 0 < distProxy f g := distProxy_pos f g fun h => hgc h.symm
      rw [findClosestAux]
      by_cases hcond : distProxy f acc > distProxy f g
      · rw [if_pos hcond]
        exact ih g hf' hgpos fun x hx => huniq x (List.mem_cons_of_mem g hx)
      · rw [if_neg hcond]
        exact ih acc hf' hacc fun x hx => huniq x (List.mem_cons_of_mem g hx)

/-- When all centers in the list are pairwise distinct, a member is matched
to itself. -/
theorem find_closest_self (f : Feature) (l : List Feature)
    (hp : l.Pairwise (fun a b => a.center ≠ b.center)) (hf : f ∈ l) :
    f.find_closest l = some f := by
  have hsym : Symmetric (fun a b : Feature => a.center ≠ b.center) :=
    fun a b h => fun h' => h h'.symm
  have huniq : ∀ g ∈ l, g.center = f.center → g = f := by
    intro g hg hgc
    by_contra hne
    exact hp.forall hsym hg hf hne hgc
  cases l with
  | nil => cases hf
  | cons c rest =>
    rw [Feature.find_closest]
    rcases List.mem_cons.1 hf with rfl | hf'
    · rw [findClosestAux_acc_min f rest f fun g hg => by
        rw [distProxy_self_eq_zero f f rfl]
        exact distProxy_nonneg f g]
    · have hc : c.center ≠ f.center := by
        rcases List.pairwise_cons.1 hp with ⟨hhead, -⟩
        exact hhead f hf'
      rw [findClosestAux_reaches_self f rest c hf' (distProxy_pos f c fun h => hc h.symm)
        fun g hg hgc => huniq g (List.mem_cons_of_mem c hg) hgc]

/-! ### Turn and approach vectors -/

theorem unit_vector_abs (θ : ℝ) : (Vector.mk (Real.cos θ) (Real.sin θ)).abs = 1 := by
  rw [Vector.abs]
  have h : Real.cos θ * Real.cos θ + Real.sin θ * Real.sin θ = 1 := by
    have := Real.sin_sq_add_cos_sq θ
    nlinarith
  rw [h, Real.sqrt_one]

theorem cos_sin_ne_zero_vec (θ : ℝ) : Vector.mk (Real.cos θ) (Real.sin θ) ≠ ⟨0, 0⟩ := by
  intro h
  have hx : Real.cos θ = 0 := congrArg Vector.x h
  have hy : Real.sin θ = 0 := congrArg Vector.y h
  have := Real.sin_sq_add_cos_sq θ
  rw [hx, hy] at this
  norm_num at this

/-- `turn_vector` is zero exactly when the two centers coincide. -/
theorem turn_vector_eq_zero_iff (a b : Feature) :
    a.turn_vector b = ⟨0, 0⟩ ↔ b.center = a.center := by
  rw [Feature.turn_vector]
  by_cases h : b.center = a.center
  · rw [if_pos h]
    simp [h]
  · rw [if_neg h]
    by_cases hl : a.turn_left b
    · rw [if_pos hl]
      simp only [iff_false_intro h, iff_false]
      exact cos_sin_ne_zero_vec _
    · rw [if_neg hl]
      simp only [iff_false_intro h, iff_false]
      exact cos_sin_ne_zero_vec _

/-- The `left` flag as an exclusive-or of its three ingredients. -/
theorem turn_left_iff (a b : Feature) :
    a.turn_left b ↔
      Xor' (Xor' (b.center < a.center) (π < |b.center - a.center|)) (π < a.width) := by
  rw [Feature.turn_left]
  by_cases h1 : |b.center - a.center| > π <;> by_cases h2 : a.width > π <;>
    simp only [if_pos, if_neg, h1, h2, if_true, if_false, Xor'] <;> tauto

/-- When the turn is to the left, the turn vector is the center direction
rotated by `+pi/2`; to the right, by `-pi/2`. -/
theorem turn_vector_eq (a b : Feature) (h : b.center ≠ a.center) :
    a.turn_vector b =
      (if a.turn_left b then ⟨Real.cos (a.center + π / 2), Real.sin (a.center + π / 2)⟩
       else ⟨Real.cos (a.center - π / 2), Real.sin (a.center - π / 2)⟩) := by
  rw [Feature.turn_vector, if_neg h]

/-- `approach_vector` is zero exactly when the two widths coincide. -/
theorem approach_vector_eq_zero_iff (a b : Feature) :
    a.approach_vector b = ⟨0, 0⟩ ↔ b.width = a.width := by
  rw [Feature.approach_vector]
  by_cases h : b.width = a.width
  · rw [if_pos h]
    simp [h]
  · rw [if_neg h]
    by_cases hw : b.width > a.width
    · rw [if_pos hw]
      simp only [iff_false_intro h, iff_false]
      intro hcontra
      have hx : Real.cos a.center + Real.cos a.center + Real.cos a.center = 0 :=
        congrArg Vector.x hcontra
      have hy : Real.sin a.center + Real.sin a.center + Real.sin a.center = 0 :=
        congrArg Vector.y hcontra
      have := Real.sin_sq_add_cos_sq a.center
      nlinarith
    · rw [if_neg hw]
      simp only [iff_false_intro h, iff_false]
      intro hcontra
      have hx : Real.cos (a.center + π) + Real.cos (a.center + π) + Real.cos (a.center + π) = 0 :=
        congrArg Vector.x hcontra
      have hy : Real.sin (a.center + π) + Real.sin (a.center + π) + Real.sin (a.center + π) = 0 :=
        congrArg Vector.y hcontra
      have := Real.sin_sq_add_cos_sq (a.center + π)
      nlinarith

/-- When the snapshot feature is wider, the approach vector is three times
the unit vector along the center bearing. -/
theorem approach_vector_of_wider (a b : Feature) (h : a.width < b.width) :
    a.approach_vector b = ⟨3 * Real.cos a.center, 3 * Real.sin a.center⟩ := by
  rw [Feature.approach_vector, if_neg (by intro he; rw [he] at h; exact lt_irrefl _ h),
    if_pos h]
  show Vector.mk (Real.cos a.center + Real.cos a.center + Real.cos a.center)
      (Real.sin a.center + Real.sin a.center + Real.sin a.center) = _
  exact congrArg₂ Vector.mk (by ring) (by ring)

/-- When the snapshot feature is narrower, the approach vector is three
times the unit vector opposite the center bearing. -/
theorem approach_vector_of_narrower (a b : Feature) (h : b.width < a.width) :
    a.approach_vector b = ⟨-(3 * Real.cos a.center), -(3 * Real.sin a.center)⟩ := by
  rw [Feature.approach_vector, if_neg (by intro he; rw [he] at h; exact lt_irrefl _ h),
    if_neg (by intro hgt; exact lt_asymm h hgt)]
  show Vector.mk (Real.cos (a.center + π) + Real.cos (a.center + π) + Real.cos (a.center + π))
      (Real.sin (a.center + π) + Real.sin (a.center + π) + Real.sin (a.center + π)) = _
  have hc : Real.cos (a.center + π) = -Real.cos a.center := by
    rw [Real.cos_add, Real.cos_pi, Real.sin_pi]
    ring
  have hs : Real.sin (a.center + π) = -Real.sin a.center := by
    rw [Real.sin_add, Real.cos_pi, Real.sin_pi]
    ring
  rw [hc, hs]
  exact congrArg₂ Vector.mk (by ring) (by ring)

theorem three_vector_abs (θ : ℝ) :
    (Vector.mk (3 * Real.cos θ) (3 * Real.sin θ)).abs = 3 := by
  rw [Vector.abs]
  have h : 3 * Real.cos θ * (3 * Real.cos θ) + 3 * Real.sin θ * (3 * Real.sin θ) = 9 := by
    have := Real.sin_sq_add_cos_sq θ
    nlinarith
  rw [h, show (9 : ℝ) = 3 ^ 2 by norm_num, Real.sqrt_sq (by norm_num : (0 : ℝ) ≤ 3)]

/-! ### Homing loop lemmas -/

theorem find_closest_eq_none_iff (f : Feature) (l : List Feature) :
    f.find_closest l = none ↔ l = [] := by
  cases l <;> simp [Feature.find_closest]

theorem homingLoop_none_iff (cands : List Feature) :
    ∀ (l : List Feature) (v : Vector),
      homingLoop cands l v = none ↔ (l ≠ [] ∧ cands = []) := by
  intro l
  induction l with
  | nil =>
    intro v
    simp [homingLoop]
  | cons sf rest ih =>
    intro v
    cases hc : cands with
    | nil =>
      simp [homingLoop, Feature.find_closest]
    | cons c cs =>
      subst hc
      rw [homingLoop]
      simp only [Feature.find_closest, Option.bind_eq_bind, Option.some_bind]
      rw [ih]
      simp

/-- When every snapshot feature is matched to itself, the homing loop leaves
the accumulator unchanged. -/
theorem homingLoop_self (cands : List Feature) :
    ∀ (l : List Feature) (v : Vector),
      (∀ sf ∈ l, sf.find_closest cands = some sf) →
      homingLoop cands l v = some v := by
  intro l
  induction l with
  | nil => intro v _; rfl
  | cons sf rest ih =>
    intro v h
    rw [homingLoop]
    rw [h sf (List.mem_cons_self sf rest)]
    simp only [Option.bind_eq_bind, Option.some_bind]
    have hturn : sf.turn_vector sf = ⟨0, 0⟩ := by
      rw [Feature.turn_vector, if_pos rfl]
    have happ : sf.approach_vector sf = ⟨0, 0⟩ := by
      rw [Feature.approach_vector, if_pos rfl]
    rw [hturn, happ, Vector.add_zero_vec, Vector.add_zero_vec]
    exact ih v fun g hg => h g (List.mem_cons_of_mem sf hg)

theorem Vector.normalize_zero : (Vector.mk 0 0).normalize = ⟨0, 0⟩ := by
  rw [Vector.normalize]
  have : (Vector.mk 0 0).abs = 0 := by
    rw [Vector.abs]
    simp
  rw [if_pos this]

/-- One unfolding step of the homing loop, given the matched feature. -/
theorem homingLoop_step (cands : List Feature) (sf : Feature) (rest : List Feature)
    (v : Vector) (m : Feature) (hm : sf.find_closest cands = some m) :
    homingLoop cands (sf :: rest) v =
      homingLoop cands rest (v + m.turn_vector sf + m.approach_vector sf) := by
  rw [homingLoop, hm]
  simp only [Option.bind_eq_bind, Option.some_bind]

/-- Evaluation of `homing_vector` from the values of its two loops. -/
theorem homing_vector_eval (cur snap : Retina) (v1 v2 : Vector)
    (h1 : homingLoop cur.dark_features snap.dark_features ⟨0, 0⟩ = some v1)
    (h2 : homingLoop cur.white_features snap.white_features v1 = some v2) :
    cur.homing_vector snap = some v2.normalize := by
  rw [Retina.homing_vector, h1]
  simp only [Option.bind_eq_bind, Option.some_bind]
  rw [h2]
  simp only [Option.some_bind]
  rfl

/-! ### More helpers for concrete evaluations -/

theorem overlaps_eq_of_lt (a b : Feature) (h : a.center < b.center) :
    (a.overlaps b) ↔
      ((a.across_zero ∧ b.across_zero) ∨
        ((a.across_zero ∨ b.across_zero) ∧ a.start < b.stop) ∨ a.stop > b.start) := by
  rw [Feature.overlaps]
  simp only [if_pos h]

theorem overlaps_eq_of_not_lt (a b : Feature) (h : ¬a.center < b.center) :
    (a.overlaps b) ↔
      ((b.across_zero ∧ a.across_zero) ∨
        ((b.across_zero ∨ a.across_zero) ∧ b.start < a.stop) ∨ b.stop > a.start) := by
  rw [Feature.overlaps]
  simp only [if_neg h]

/-- The center of a zero-width feature is its (in-range) angle. -/
theorem center_point (c : ℝ) (h0 : 0 ≤ c) (h1 : c < 2 * π) :
    (Feature.mk c c).center = c := by
  have hne : ¬(Feature.mk c c).across_zero := lt_irrefl c
  rw [Feature.center, Feature.width, if_neg hne,
    show (Feature.mk c c).start + ((Feature.mk c c).stop - (Feature.mk c c).start) / 2 = c by
      show c + (c - c) / 2 = c
      ring]
  exact mod2pi_eq_self h0 h1

/-- The center of an in-range non-wrapping feature given explicitly. -/
theorem center_plain (s e : ℝ) (hse : s ≤ e) (h0 : 0 ≤ s) (h1 : s + (e - s) / 2 < 2 * π) :
    (Feature.mk s e).center = s + (e - s) / 2 := by
  have hne : ¬(Feature.mk s e).across_zero := not_lt.2 hse
  rw [Feature.center, Feature.width, if_neg hne]
  exact mod2pi_eq_self (by linarith) h1

theorem sqrt_four : Real.sqrt 4 = 2 := by
  rw [show (4 : ℝ) = 2 ^ 2 by norm_num, Real.sqrt_sq (by norm_num : (0 : ℝ) ≤ 2)]

/-! ### Claim C10 -/

/-- Claim C10 (counterexample): `overlaps` is not reflexive on zero-width
features — the feature from 1 rad to 1 rad does not overlap itself, contrary
to the claim that reflexivity holds "including zero-width features". -/
theorem C10_counterexample : ¬(Feature.mk 1 1).overlaps (Feature.mk 1 1) :=
  fun h => (overlaps_self_iff _).1 h rfl

/-- Claim C10 (amended): `overlaps` is reflexive exactly for features whose
two boundary angles differ; a zero-width feature does not overlap itself.
During Retina construction with a single landmark the lone dark feature has
positive width and hence overlaps itself. -/
theorem C10_overlaps_refl_iff (f : Feature) : f.overlaps f ↔ f.start ≠ f.stop :=
  overlaps_self_iff f

/-- Witness for C10 at a concrete feature. -/
theorem C10_overlaps_refl_iff_witness :
    (Feature.mk 0 1).overlaps (Feature.mk 0 1) ↔ (0 : ℝ) ≠ 1 :=
  C10_overlaps_refl_iff ⟨0, 1⟩

/-! ### Claim C6 -/

/-- Claim C6: `overlaps` is symmetric, for features whose boundary angles lie
in `[0, 2*pi)` (the data-model range), including equal centers and wrapping
features. -/
theorem C6_overlaps_symmetric (a b : Feature)
    (ha1 : 0 ≤ a.start) (ha2 : a.start < 2 * π) (ha3 : 0 ≤ a.stop) (ha4 : a.stop < 2 * π)
    (hb1 : 0 ≤ b.start) (hb2 : b.start < 2 * π) (hb3 : 0 ≤ b.stop) (hb4 : b.stop < 2 * π) :
    (a.overlaps b ↔ b.overlaps a) := by
  rcases lt_trichotomy a.center b.center with h | h | h
  · rw [overlaps_eq_of_lt a b h, overlaps_eq_of_not_lt b a (not_lt.2 (le_of_lt h))]
  · rw [overlaps_eq_of_not_lt a b (by rw [h]; exact lt_irrefl _),
      overlaps_eq_of_not_lt b a (by rw [h]; exact lt_irrefl _)]
    exact core_center_eq_iff b a hb1 hb2 hb3 hb4 ha1 ha2 ha3 ha4 h.symm
  · rw [overlaps_eq_of_not_lt a b (not_lt.2 (le_of_lt h)), overlaps_eq_of_lt b a h]

/-- Witness for C6 at concrete features. -/
theorem C6_overlaps_symmetric_witness :
    ((Feature.mk 0 1).overlaps (Feature.mk 2 3) ↔ (Feature.mk 2 3).overlaps (Feature.mk 0 1)) := by
  have h6 : (6 : ℝ) < 2 * π := by nlinarith [Real.pi_gt_three]
  exact C6_overlaps_symmetric ⟨0, 1⟩ ⟨2, 3⟩ (show (0 : ℝ) ≤ 0 by norm_num)
    (show (0 : ℝ) < 2 * π by linarith) (show (0 : ℝ) ≤ 1 by norm_num)
    (show (1 : ℝ) < 2 * π by linarith) (show (0 : ℝ) ≤ 2 by norm_num)
    (show (2 : ℝ) < 2 * π by linarith) (show (0 : ℝ) ≤ 3 by norm_num)
    (show (3 : ℝ) < 2 * π by linarith)

/-! ### Claim C8 -/

/-- Claim C8: `approach_vector` is the zero vector exactly when the widths
are equal; otherwise it has magnitude exactly 3, pointing along the center
bearing when the snapshot feature is wider, and opposite it when the
snapshot feature is narrower. -/
theorem C8_approach_vector (a b : Feature) :
    (a.approach_vector b = ⟨0, 0⟩ ↔ b.width = a.width) ∧
    (a.width < b.width →
      a.approach_vector b = ⟨3 * Real.cos a.center, 3 * Real.sin a.center⟩ ∧
      (a.approach_vector b).abs = 3) ∧
    (b.width < a.width →
      a.approach_vector b = ⟨-(3 * Real.cos a.center), -(3 * Real.sin a.center)⟩ ∧
      (a.approach_vector b).abs = 3) := by
  refine ⟨approach_vector_eq_zero_iff a b, fun h => ?_, fun h => ?_⟩
  · rw [approach_vector_of_wider a b h]
    exact ⟨rfl, three_vector_abs _⟩
  · rw [approach_vector_of_narrower a b h]
    refine ⟨rfl, ?_⟩
    rw [Vector.abs]
    have h9 : -(3 * Real.cos a.center) * -(3 * Real.cos a.center) +
        -(3 * Real.sin a.center) * -(3 * Real.sin a.center) = 9 := by
      nlinarith [Real.sin_sq_add_cos_sq a.center]
    rw [h9, show (9 : ℝ) = 3 ^ 2 by norm_num, Real.sqrt_sq (by norm_num : (0 : ℝ) ≤ 3)]

/-- Witness for C8 at concrete features of widths 1 and 2. -/
theorem C8_approach_vector_witness :
    (Feature.mk 0 1).approach_vector (Feature.mk 0 2) =
      ⟨3 * Real.cos (Feature.mk 0 1).center, 3 * Real.sin (Feature.mk 0 1).center⟩ ∧
    ((Feature.mk 0 1).approach_vector (Feature.mk 0 2)).abs = 3 := by
  have hw : (Feature.mk 0 1).width < (Feature.mk 0 2).width := by
    rw [Feature.width, Feature.width, if_neg (by norm_num [Feature.across_zero]),
      if_neg (by norm_num [Feature.across_zero])]
    norm_num
  exact (C8_approach_vector ⟨0, 1⟩ ⟨0, 2⟩).2.1 hw

/-! ### Claim C3 -/

/-- Claim C3 (counterexample): the left/right decision of `turn_vector` is
not decided solely by the shorter angular direction between the centers —
a current feature of width greater than pi flips it once more.  At
`a = (0, 3*pi/2)` and `b = (pi/4, 3*pi/4)` the code and the claim disagree. -/
theorem C3_counterexample :
    (Feature.mk 0 (3 * π / 2)).turn_vector (Feature.mk (π / 4) (3 * π / 4)) ≠
      turn_vector_claimed (Feature.mk 0 (3 * π / 2)) (Feature.mk (π / 4) (3 * π / 4)) := by
  have hpi := Real.pi_pos
  have hca : (Feature.mk 0 (3 * π / 2)).center = 3 * π / 4 := by
    rw [center_plain 0 (3 * π / 2) (by linarith) le_rfl (by linarith)]
    ring
  have hcb : (Feature.mk (π / 4) (3 * π / 4)).center = π / 2 := by
    rw [center_plain (π / 4) (3 * π / 4) (by linarith) (by linarith) (by linarith)]
    ring
  have hwa : (Feature.mk 0 (3 * π / 2)).width = 3 * π / 2 := by
    rw [Feature.width, if_neg (by show ¬(0 : ℝ) > 3 * π / 2; linarith)]
    ring
  have hne : (Feature.mk (π / 4) (3 * π / 4)).center ≠ (Feature.mk 0 (3 * π / 2)).center := by
    rw [hca, hcb]
    intro h
    linarith
  have habs : |(Feature.mk (π / 4) (3 * π / 4)).center - (Feature.mk 0 (3 * π / 2)).center| =
      π / 4 := by
    rw [hca, hcb, show π / 2 - 3 * π / 4 = -(π / 4) by ring, abs_neg, abs_of_pos (by linarith)]
  have hX0 : (Feature.mk (π / 4) (3 * π / 4)).center < (Feature.mk 0 (3 * π / 2)).center := by
    rw [hca, hcb]
    linarith
  have hX1 : ¬(π < |(Feature.mk (π / 4) (3 * π / 4)).center -
      (Feature.mk 0 (3 * π / 2)).center|) := by
    rw [habs]
    linarith
  have hX2 : π < (Feature.mk 0 (3 * π / 2)).width := by
    rw [hwa]
    linarith
  have hleft : ¬(Feature.mk 0 (3 * π / 2)).turn_left (Feature.mk (π / 4) (3 * π / 4)) := by
    rw [turn_left_iff]
    simp [Xor', hX0, hX1, hX2]
  have hcode : (Feature.mk 0 (3 * π / 2)).turn_vector (Feature.mk (π / 4) (3 * π / 4)) =
      ⟨Real.cos (3 * π / 4 - π / 2), Real.sin (3 * π / 4 - π / 2)⟩ := by
    rw [Feature.turn_vector, if_neg hne, if_neg hleft, hca]
  have hclaim : turn_vector_claimed (Feature.mk 0 (3 * π / 2)) (Feature.mk (π / 4) (3 * π / 4)) =
      ⟨Real.cos (3 * π / 4 + π / 2), Real.sin (3 * π / 4 + π / 2)⟩ := by
    rw [turn_vector_claimed, if_neg hne, if_pos (by simp [Xor', hX0, hX1]), hca]
  rw [hcode, hclaim]
  intro h
  have hx : Real.cos (3 * π / 4 - π / 2) = Real.cos (3 * π / 4 + π / 2) :=
    congrArg Vector.x h
  rw [show 3 * π / 4 - π / 2 = π / 4 by ring, show 3 * π / 4 + π / 2 = π + π / 4 by ring] at hx
  have hcos : Real.cos (π + π / 4) = -Real.cos (π / 4) := by
    rw [Real.cos_add, Real.cos_pi, Real.sin_pi]
    ring
  rw [hcos, Real.cos_pi_div_four] at hx
  have hs2 : 0 < Real.sqrt 2 := Real.sqrt_pos.2 (by norm_num)
  linarith

/-- Claim C3 (amended): `turn_vector` is zero exactly when the centers
coincide; otherwise it is a unit vector perpendicular to the direction of
`a`'s center, and its orientation (measured by the z-component of the cross
product of the center direction with the turn vector) is the exclusive-or of
the shorter-angular-direction decision with one additional flip when `a`'s
width exceeds pi. -/
theorem C3_turn_vector (a b : Feature) :
    (a.turn_vector b = ⟨0, 0⟩ ↔ b.center = a.center) ∧
    (b.center ≠ a.center →
      (a.turn_vector b).abs = 1 ∧
      (a.turn_vector b).x * Real.cos a.center + (a.turn_vector b).y * Real.sin a.center = 0 ∧
      (Xor' (Xor' (b.center < a.center) (π < |b.center - a.center|)) (π < a.width) →
        Real.cos a.center * (a.turn_vector b).y - Real.sin a.center * (a.turn_vector b).x = 1) ∧
      (¬Xor' (Xor' (b.center < a.center) (π < |b.center - a.center|)) (π < a.width) →
        Real.cos a.center * (a.turn_vector b).y - Real.sin a.center * (a.turn_vector b).x
          = -1)) := by
  refine ⟨turn_vector_eq_zero_iff a b, fun h => ?_⟩
  rw [turn_vector_eq a b h]
  by_cases hl : a.turn_left b
  · rw [if_pos hl]
    refine ⟨unit_vector_abs _, ?_, fun _ => ?_, fun hx => ?_⟩
    · show Real.cos (a.center + π / 2) * Real.cos a.center +
        Real.sin (a.center + π / 2) * Real.sin a.center = 0
      rw [← Real.cos_sub, show a.center + π / 2 - a.center = π / 2 by ring,
        Real.cos_pi_div_two]
    · show Real.cos a.center * Real.sin (a.center + π / 2) -
        Real.sin a.center * Real.cos (a.center + π / 2) = 1
      have heq : Real.sin (a.center + π / 2 - a.center) =
          Real.cos a.center * Real.sin (a.center + π / 2) -
          Real.sin a.center * Real.cos (a.center + π / 2) := by
        rw [Real.sin_sub (a.center + π / 2) a.center]
        ring
      rw [← heq, show a.center + π / 2 - a.center = π / 2 by ring, Real.sin_pi_div_two]
    · exact absurd ((turn_left_iff a b).1 hl) hx
  · rw [if_neg hl]
    refine ⟨unit_vector_abs _, ?_, fun hx => ?_, fun _ => ?_⟩
    · show Real.cos (a.center - π / 2) * Real.cos a.center +
        Real.sin (a.center - π / 2) * Real.sin a.center = 0
      rw [← Real.cos_sub, show a.center - π / 2 - a.center = -(π / 2) by ring,
        Real.cos_neg, Real.cos_pi_div_two]
    · exact absurd ((turn_left_iff a b).2 hx) hl
    · show Real.cos a.center * Real.sin (a.center - π / 2) -
        Real.sin a.center * Real.cos (a.center - π / 2) = -1
      have heq : Real.sin (a.center - π / 2 - a.center) =
          Real.cos a.center * Real.sin (a.center - π / 2) -
          Real.sin a.center * Real.cos (a.center - π / 2) := by
        rw [Real.sin_sub (a.center - π / 2) a.center]
        ring
      rw [← heq, show a.center - π / 2 - a.center = -(π / 2) by ring, Real.sin_neg,
        Real.sin_pi_div_two]

/-- Witness for C3 at concrete features with distinct centers. -/
theorem C3_turn_vector_witness :
    ((Feature.mk 0 2).turn_vector (Feature.mk 0 0)).abs = 1 := by
  have hpi := Real.pi_pos
  have h6 : (6 : ℝ) < 2 * π := by nlinarith [Real.pi_gt_three]
  have hca : (Feature.mk 0 2).center = 1 := by
    rw [center_plain 0 2 (by norm_num) le_rfl (by norm_num; linarith)]
    norm_num
  have hcb : (Feature.mk 0 0).center = 0 := center_point 0 le_rfl two_pi_pos
  have hne : (Feature.mk 0 0).center ≠ (Feature.mk 0 2).center := by
    rw [hca, hcb]
    norm_num
  exact ((C3_turn_vector ⟨0, 2⟩ ⟨0, 0⟩).2 hne).1

/-! ### Claim C7 -/

/-- Claim C7: `find_closest` returns the first candidate minimising the
proxy `sin(|Δcenter|/2)`, which is also a candidate nearest in true circular
distance; for a feature centered at 0° and candidates centered at
10°, 170°, 190°, the result is the 10° candidate. -/
theorem C7_find_closest :
    (∀ (f : Feature) (l : List Feature), l ≠ [] →
      ∃ l1 m l2, l = l1 ++ m :: l2 ∧ f.find_closest l = some m ∧
        (∀ g ∈ l, distProxy f m ≤ distProxy f g) ∧
        (∀ g ∈ l1, distProxy f m < distProxy f g) ∧
        (∀ g ∈ l, circDist f.center m.center ≤ circDist f.center g.center)) ∧
    (Feature.mk 0 0).find_closest
        [⟨π / 18, π / 18⟩, ⟨17 * π / 18, 17 * π / 18⟩, ⟨19 * π / 18, 19 * π / 18⟩] =
      some ⟨π / 18, π / 18⟩ := by
  constructor
  · intro f l hl
    obtain ⟨l1, m, l2, hdec, heq, hmin, hstrict⟩ := find_closest_first_min f l hl
    exact ⟨l1, m, l2, hdec, heq, hmin, hstrict,
      fun g hg => (distProxy_le_iff f m g).1 (hmin g hg)⟩
  · have hpi := Real.pi_pos
    have hc0 : (Feature.mk (0 : ℝ) 0).center = 0 := center_point 0 le_rfl two_pi_pos
    have hc10 : (Feature.mk (π / 18) (π / 18)).center = π / 18 :=
      center_point _ (by linarith) (by linarith)
    have hc170 : (Feature.mk (17 * π / 18) (17 * π / 18)).center = 17 * π / 18 :=
      center_point _ (by linarith) (by linarith)
    have hc190 : (Feature.mk (19 * π / 18) (19 * π / 18)).center = 19 * π / 18 :=
      center_point _ (by linarith) (by linarith)
    have hp10 : distProxy ⟨0, 0⟩ ⟨π / 18, π / 18⟩ = Real.sin (π / 36) := by
      rw [distProxy, hc0, hc10, show (0 : ℝ) - π / 18 = -(π / 18) by ring, abs_neg,
        abs_of_pos (by linarith), show π / 18 / 2 = π / 36 by ring]
    have hp170 : distProxy ⟨0, 0⟩ ⟨17 * π / 18, 17 * π / 18⟩ = Real.sin (17 * π / 36) := by
      rw [distProxy, hc0, hc170, show (0 : ℝ) - 17 * π / 18 = -(17 * π / 18) by ring, abs_neg,
        abs_of_pos (by linarith), show 17 * π / 18 / 2 = 17 * π / 36 by ring]
    have hp190 : distProxy ⟨0, 0⟩ ⟨19 * π / 18, 19 * π / 18⟩ = Real.sin (17 * π / 36) := by
      rw [distProxy, hc0, hc190, show (0 : ℝ) - 19 * π / 18 = -(19 * π / 18) by ring, abs_neg,
        abs_of_pos (by linarith), show 19 * π / 18 / 2 = 19 * π / 36 by ring,
        show 19 * π / 36 = π - 17 * π / 36 by ring, Real.sin_pi_sub]
    have hmono : Real.sin (π / 36) < Real.sin (17 * π / 36) := by
      apply Real.strictMonoOn_sin
      · constructor <;> [linarith; linarith]
      · constructor <;> [linarith; linarith]
      · linarith
    rw [Feature.find_closest]
    congr 1
    rw [findClosestAux, if_neg (by rw [hp10, hp170]; exact not_lt.2 hmono.le)]
    rw [findClosestAux, if_neg (by rw [hp10, hp190]; exact not_lt.2 hmono.le)]
    rfl

/-- Witness for C7 on a singleton candidate list. -/
theorem C7_find_closest_witness :
    ∃ l1 m l2, ([Feature.mk 0 0] : List Feature) = l1 ++ m :: l2 ∧
      (Feature.mk 0 0).find_closest [Feature.mk 0 0] = some m ∧
      (∀ g ∈ ([Feature.mk 0 0] : List Feature),
        distProxy ⟨0, 0⟩ m ≤ distProxy ⟨0, 0⟩ g) ∧
      (∀ g ∈ l1, distProxy ⟨0, 0⟩ m < distProxy ⟨0, 0⟩ g) ∧
      (∀ g ∈ ([Feature.mk 0 0] : List Feature),
        circDist (Feature.mk 0 0).center m.center ≤
          circDist (Feature.mk 0 0).center g.center) :=
  C7_find_closest.1 ⟨0, 0⟩ [⟨0, 0⟩] (by simp)

/-! ### Claim C9 -/

/-- Claim C9: for a landmark of positive diameter with the observer strictly
outside its disk, the dark feature has both boundary angles in `[0, 2*pi)`
and width exactly `2*arcsin(radius/distance)`, lying in `(0, 2*pi]`; when
the observer coincides with the landmark center the half-width is 0 and the
feature degenerates to `(0, 0)`. -/
theorem C9_dark_feature (p : Vector) (l : Landmark) :
    (0 < l.diameter → l.radius < (l.position - p).abs →
      ∃ f, Feature.from_position_and_landmark p l = some f ∧
        0 ≤ f.start ∧ f.start < 2 * π ∧ 0 ≤ f.stop ∧ f.stop < 2 * π ∧
        f.width = 2 * Real.arcsin (l.radius / (l.position - p).abs) ∧
        0 < f.width ∧ f.width ≤ 2 * π) ∧
    (p = l.position → Feature.from_position_and_landmark p l = some ⟨0, 0⟩) := by
  constructor
  · intro hd hout
    obtain ⟨f, h1, h2, h3, h4, h5, h6, h7, h8⟩ := from_position_spec p l hd hout
    exact ⟨f, h1, h2, h3, h4, h5, h6, h7, by linarith [Real.pi_pos]⟩
  · exact from_position_degenerate p l

/-- Witness for C9: a landmark of diameter 2 at `(2,0)` seen from the
origin. -/
theorem C9_dark_feature_witness :
    ∃ f, Feature.from_position_and_landmark ⟨0, 0⟩ ⟨⟨2, 0⟩, 2⟩ = some f ∧
      0 ≤ f.start ∧ f.start < 2 * π ∧ 0 ≤ f.stop ∧ f.stop < 2 * π ∧
      f.width = 2 * Real.arcsin ((Landmark.mk ⟨2, 0⟩ 2).radius /
        ((Landmark.mk ⟨2, 0⟩ 2).position - ⟨0, 0⟩).abs) ∧
      0 < f.width ∧ f.width ≤ 2 * π := by
  apply (C9_dark_feature ⟨0, 0⟩ ⟨⟨2, 0⟩, 2⟩).1
  · show (0 : ℝ) < 2
    norm_num
  · have habs : ((Landmark.mk ⟨2, 0⟩ 2).position - (⟨0, 0⟩ : Vector)).abs = 2 := by
      show Real.sqrt ((2 - 0) * (2 - 0) + (0 - 0) * (0 - 0)) = 2
      rw [show ((2 : ℝ) - 0) * (2 - 0) + (0 - 0) * (0 - 0) = 4 by norm_num]
      exact sqrt_four
    rw [habs]
    show (2 : ℝ) / 2 < 2
    norm_num

/-! ### Claim C2 -/

/-- Claim C2 (counterexample): with zero landmarks on both sides,
`homing_vector` does not fail — it silently returns the zero vector, even
though both retinas have no dark and no light features. -/
theorem C2_counterexample :
    ∃ r, Retina.build ⟨0, 0⟩ [] = some r ∧ r.dark_features = [] ∧ r.white_features = [] ∧
      r.homing_vector r = some ⟨0, 0⟩ := by
  refine ⟨⟨⟨0, 0⟩, [], []⟩, rfl, rfl, rfl, ?_⟩
  rw [Retina.homing_vector]
  simp only [homingLoop, Option.bind_eq_bind, Option.some_bind]
  rw [Vector.normalize_zero]
  rfl

/-- Claim C2 (amended): `homing_vector` fails exactly when the snapshot has
a dark feature while the current retina has none, or the snapshot has a
white feature while the current retina has none; an empty snapshot side is
skipped without error. -/
theorem C2_homing_failure_iff (cur snap : Retina) :
    cur.homing_vector snap = none ↔
      (snap.dark_features ≠ [] ∧ cur.dark_features = []) ∨
      (snap.white_features ≠ [] ∧ cur.white_features = []) := by
  rw [Retina.homing_vector]
  rcases h1 : homingLoop cur.dark_features snap.dark_features ⟨0, 0⟩ with _ | v
  · simp only [Option.bind_eq_bind, Option.none_bind]
    constructor
    · intro _
      exact Or.inl ((homingLoop_none_iff _ _ _).1 h1)
    · intro _
      trivial
  · simp only [Option.bind_eq_bind, Option.some_bind]
    rcases h2 : homingLoop cur.white_features snap.white_features v with _ | v2
    · simp only [Option.none_bind]
      constructor
      · intro _
        exact Or.inr ((homingLoop_none_iff _ _ _).1 h2)
      · intro _
        trivial
    · simp only [Option.some_bind]
      constructor
      · intro hcontra
        exact (Option.some_ne_none _ hcontra).elim
      · rintro (hcase | hcase)
        · rw [(homingLoop_none_iff _ _ _).2 hcase] at h1
          cases h1
        · rw [(homingLoop_none_iff _ _ _).2 hcase] at h2
          cases h2

/-- Witness for C2 at concrete empty retinas. -/
theorem C2_homing_failure_iff_witness :
    (Retina.mk ⟨0, 0⟩ [] []).homing_vector (Retina.mk ⟨0, 0⟩ [] []) = none ↔
      (([] : List Feature) ≠ [] ∧ ([] : List Feature) = []) ∨
      (([] : List Feature) ≠ [] ∧ ([] : List Feature) = []) :=
  C2_homing_failure_iff ⟨⟨0, 0⟩, [], []⟩ ⟨⟨0, 0⟩, [], []⟩

/-! ### Claim C4 -/

/-- Arcs sharing only the boundary point 100° do not overlap: the code's
comparisons are strict. -/
theorem not_overlaps_shared_boundary :
    ¬(Feature.mk (50 * π / 180) (100 * π / 180)).overlaps
      ⟨100 * π / 180, 110 * π / 180⟩ := by
  have hpi := Real.pi_pos
  have hf : ¬(Feature.mk (50 * π / 180) (100 * π / 180)).across_zero := by
    show ¬(50 * π / 180 > 100 * π / 180)
    push_neg
    nlinarith
  have hg : ¬(Feature.mk (100 * π / 180) (110 * π / 180)).across_zero := by
    show ¬(100 * π / 180 > 110 * π / 180)
    push_neg
    nlinarith
  have hwf : 0 < (Feature.mk (50 * π / 180) (100 * π / 180)).width := by
    rw [Feature.width, if_neg hf]
    show 0 < 100 * π / 180 - 50 * π / 180
    nlinarith
  have hwg : 0 < (Feature.mk (100 * π / 180) (110 * π / 180)).width := by
    rw [Feature.width, if_neg hg]
    show 0 < 110 * π / 180 - 100 * π / 180
    nlinarith
  rw [overlaps_iff_arcsIntersect _ _ (by show 0 ≤ 50 * π / 180; nlinarith)
    (by show 50 * π / 180 < 2 * π; nlinarith) (by show 0 ≤ 100 * π / 180; nlinarith)
    (by show 100 * π / 180 < 2 * π; nlinarith) (by show 0 ≤ 100 * π / 180; nlinarith)
    (by show 100 * π / 180 < 2 * π; nlinarith) (by show 0 ≤ 110 * π / 180; nlinarith)
    (by show 110 * π / 180 < 2 * π; nlinarith) hwf hwg]
  rintro ⟨x, -, -, hx1, hx2⟩
  rw [memOpenArc, if_neg hf] at hx1
  rw [memOpenArc, if_neg hg] at hx2
  have h1 : x < 100 * π / 180 := hx1.2
  have h2 : 100 * π / 180 < x := hx2.1
  linarith

/-- Claim C4 (counterexample): the claim counts arcs sharing a single
boundary point as overlapping, but the code's strict comparisons classify
`(50°,100°)` vs `(100°,110°)` as non-overlapping. -/
theorem C4_counterexample :
    ¬(Feature.mk (50 * π / 180) (100 * π / 180)).overlaps
      ⟨100 * π / 180, 110 * π / 180⟩ :=
  not_overlaps_shared_boundary

/-- Range, wrap and width facts for a non-wrapping feature given in
degrees. -/
theorem nonwrap_deg (s e : ℝ) (h0 : 0 ≤ s) (h1 : s < e) (h2 : e < 360) :
    ¬(Feature.mk (s * π / 180) (e * π / 180)).across_zero ∧
    0 ≤ (Feature.mk (s * π / 180) (e * π / 180)).start ∧
    (Feature.mk (s * π / 180) (e * π / 180)).start < 2 * π ∧
    0 ≤ (Feature.mk (s * π / 180) (e * π / 180)).stop ∧
    (Feature.mk (s * π / 180) (e * π / 180)).stop < 2 * π ∧
    0 < (Feature.mk (s * π / 180) (e * π / 180)).width := by
  have hpi := Real.pi_pos
  have hacross : ¬(Feature.mk (s * π / 180) (e * π / 180)).across_zero := by
    show ¬(s * π / 180 > e * π / 180)
    push_neg
    nlinarith
  refine ⟨hacross, ?_, ?_, ?_, ?_, ?_⟩
  · show 0 ≤ s * π / 180
    nlinarith
  · show s * π / 180 < 2 * π
    nlinarith
  · show 0 ≤ e * π / 180
    nlinarith
  · show e * π / 180 < 2 * π
    nlinarith
  · rw [Feature.width, if_neg hacross]
    show 0 < e * π / 180 - s * π / 180
    nlinarith

set_option maxHeartbeats 1000000 in
/-- Claim C4 (amended): `overlaps` holds exactly when the two open arcs
intersect (in-range positive-width features; sharing only a boundary point
does not count), and it classifies the spec's examples accordingly, with
`(50°,100°)` vs `(100°,110°)` evaluating to false. -/
theorem C4_overlaps_iff :
    (∀ f g : Feature,
      0 ≤ f.start → f.start < 2 * π → 0 ≤ f.stop → f.stop < 2 * π →
      0 ≤ g.start → g.start < 2 * π → 0 ≤ g.stop → g.stop < 2 * π →
      0 < f.width → 0 < g.width → (f.overlaps g ↔ arcsIntersect f g)) ∧
    (Feature.mk (50 * π / 180) (100 * π / 180)).overlaps ⟨60 * π / 180, 90 * π / 180⟩ ∧
    ¬(Feature.mk (50 * π / 180) (100 * π / 180)).overlaps ⟨110 * π / 180, 150 * π / 180⟩ ∧
    (Feature.mk (350 * π / 180) (10 * π / 180)).overlaps ⟨5 * π / 180, 15 * π / 180⟩ ∧
    ¬(Feature.mk (350 * π / 180) (10 * π / 180)).overlaps ⟨15 * π / 180, 20 * π / 180⟩ ∧
    ¬(Feature.mk (50 * π / 180) (100 * π / 180)).overlaps ⟨100 * π / 180, 110 * π / 180⟩ := by
  have hpi := Real.pi_pos
  obtain ⟨hA0, hA1, hA2, hA3, hA4, hA5⟩ := nonwrap_deg 50 100 (by norm_num) (by norm_num)
    (by norm_num)
  obtain ⟨hB0, hB1, hB2, hB3, hB4, hB5⟩ := nonwrap_deg 60 90 (by norm_num) (by norm_num)
    (by norm_num)
  obtain ⟨hC0, hC1, hC2, hC3, hC4, hC5⟩ := nonwrap_deg 110 150 (by norm_num) (by norm_num)
    (by norm_num)
  obtain ⟨hD0, hD1, hD2, hD3, hD4, hD5⟩ := nonwrap_deg 5 15 (by norm_num) (by norm_num)
    (by norm_num)
  obtain ⟨hE0, hE1, hE2, hE3, hE4, hE5⟩ := nonwrap_deg 15 20 (by norm_num) (by norm_num)
    (by norm_num)
  obtain ⟨hF0, hF1, hF2, hF3, hF4, hF5⟩ := nonwrap_deg 100 110 (by norm_num) (by norm_num)
    (by norm_num)
  have hW0 : (Feature.mk (350 * π / 180) (10 * π / 180)).across_zero := by
    show 350 * π / 180 > 10 * π / 180
    linarith
  have hW1 : 0 ≤ (Feature.mk (350 * π / 180) (10 * π / 180)).start := by
    show 0 ≤ 350 * π / 180
    linarith
  have hW2 : (Feature.mk (350 * π / 180) (10 * π / 180)).start < 2 * π := by
    show 350 * π / 180 < 2 * π
    linarith
  have hW3 : 0 ≤ (Feature.mk (350 * π / 180) (10 * π / 180)).stop := by
    show 0 ≤ 10 * π / 180
    linarith
  have hW4 : (Feature.mk (350 * π / 180) (10 * π / 180)).stop < 2 * π := by
    show 10 * π / 180 < 2 * π
    linarith
  have hW5 : 0 < (Feature.mk (350 * π / 180) (10 * π / 180)).width := by
    rw [Feature.width, if_pos hW0]
    show 0 < 10 * π / 180 - 350 * π / 180 + 2 * π
    linarith
  refine ⟨fun f g h1 h2 h3 h4 h5 h6 h7 h8 hw1 hw2 =>
      overlaps_iff_arcsIntersect f g h1 h2 h3 h4 h5 h6 h7 h8 hw1 hw2, ?_, ?_, ?_, ?_,
      not_overlaps_shared_boundary⟩
  · -- (50°,100°) overlaps (60°,90°): common interior point 70°
    rw [overlaps_iff_arcsIntersect _ _ hA1 hA2 hA3 hA4 hB1 hB2 hB3 hB4 hA5 hB5]
    refine ⟨70 * π / 180, by linarith, by linarith, ?_, ?_⟩
    · rw [memOpenArc, if_neg hA0]
      constructor <;> linarith
    · rw [memOpenArc, if_neg hB0]
      constructor <;> linarith
  · -- (50°,100°) does not overlap (110°,150°)
    rw [overlaps_iff_arcsIntersect _ _ hA1 hA2 hA3 hA4 hC1 hC2 hC3 hC4 hA5 hC5]
    rintro ⟨x, -, -, hx1, hx2⟩
    rw [memOpenArc, if_neg hA0] at hx1
    rw [memOpenArc, if_neg hC0] at hx2
    have := hx1.2
    have := hx2.1
    linarith
  · -- (350°,10°) overlaps (5°,15°): common interior point 7°
    rw [overlaps_iff_arcsIntersect _ _ hW1 hW2 hW3 hW4 hD1 hD2 hD3 hD4 hW5 hD5]
    refine ⟨7 * π / 180, by linarith, by linarith, ?_, ?_⟩
    · rw [memOpenArc, if_pos hW0]
      right
      linarith
    · rw [memOpenArc, if_neg hD0]
      constructor <;> linarith
  · -- (350°,10°) does not overlap (15°,20°)
    rw [overlaps_iff_arcsIntersect _ _ hW1 hW2 hW3 hW4 hE1 hE2 hE3 hE4 hW5 hE5]
    rintro ⟨x, -, hxlt, hx1, hx2⟩
    rw [memOpenArc, if_pos hW0] at hx1
    rw [memOpenArc, if_neg hE0] at hx2
    have h15 := hx2.1
    have h20 := hx2.2
    rcases hx1 with h | h
    · linarith
    · linarith

/-- Witness for C4 at concrete features. -/
theorem C4_overlaps_iff_witness :
    (Feature.mk 0 1).overlaps (Feature.mk 0 1) ↔
      arcsIntersect (Feature.mk 0 1) (Feature.mk 0 1) := by
  have hpi := Real.pi_pos
  have h6 : (6 : ℝ) < 2 * π := by nlinarith [Real.pi_gt_three]
  have hac : ¬(Feature.mk (0 : ℝ) 1).across_zero := by
    show ¬(0 : ℝ) > 1
    norm_num
  have hw : 0 < (Feature.mk (0 : ℝ) 1).width := by
    rw [Feature.width, if_neg hac]
    show (0 : ℝ) < 1 - 0
    norm_num
  exact C4_overlaps_iff.1 ⟨0, 1⟩ ⟨0, 1⟩ (show (0 : ℝ) ≤ 0 by norm_num)
    (show (0 : ℝ) < 2 * π by linarith) (show (0 : ℝ) ≤ 1 by norm_num)
    (show (1 : ℝ) < 2 * π by linarith) (show (0 : ℝ) ≤ 0 by norm_num)
    (show (0 : ℝ) < 2 * π by linarith) (show (0 : ℝ) ≤ 1 by norm_num)
    (show (1 : ℝ) < 2 * π by linarith) hw hw

/-! ### Claim C1 -/

theorem start_ne_stop_of_width_pos (f : Feature) (h : 0 < f.width) :
    f.start ≠ f.stop := by
  intro he
  rw [Feature.width] at h
  by_cases ha : f.across_zero
  · have ha' : f.start > f.stop := ha
    rw [he] at ha'
    exact lt_irrefl _ ha'
  · rw [if_neg ha, he] at h
    linarith

/-- The dark-feature construction loop succeeds and yields one in-range
positive-width feature per landmark. -/
theorem darkFeaturesOf_spec (p : Vector) :
    ∀ ls : List Landmark,
      (∀ l ∈ ls, 0 < l.diameter ∧ l.radius < (l.position - p).abs) →
      ∃ ds, darkFeaturesOf p ls = some ds ∧ ds.length = ls.length ∧
        ∀ f ∈ ds, 0 ≤ f.start ∧ f.start < 2 * π ∧ 0 ≤ f.stop ∧ f.stop < 2 * π ∧
          0 < f.width ∧ f.width < π := by
  intro ls
  induction ls with
  | nil =>
    intro _
    exact ⟨[], rfl, rfl, by simp⟩
  | cons l rest ih =>
    intro h
    obtain ⟨f, hf, p1, p2, p3, p4, -, p6, p7⟩ :=
      from_position_spec p l (h l (List.mem_cons_self l rest)).1
        (h l (List.mem_cons_self l rest)).2
    obtain ⟨ds, hds, hlen, hprops⟩ := ih fun x hx => h x (List.mem_cons_of_mem l hx)
    refine ⟨f :: ds, ?_, by simp [hlen], ?_⟩
    · rw [darkFeaturesOf, hf, hds]
      simp only [Option.bind_eq_bind, Option.some_bind]
      rfl
    · intro g hg
      rcases List.mem_cons.1 hg with rfl | hg'
      · exact ⟨p1, p2, p3, p4, p6, p7⟩
      · exact hprops g hg'

/-- Full specification of `Retina.build` under the observer-outside
precondition: one sorted dark feature per landmark, at most one white
feature per adjacent pair, and no white feature at all for a single
landmark (the lone dark feature overlaps itself). -/
theorem retina_build_spec (p : Vector) (ls : List Landmark)
    (h : ∀ l ∈ ls, 0 < l.diameter ∧ l.radius < (l.position - p).abs) :
    ∃ r, Retina.build p ls = some r ∧ r.dark_features.length = ls.length ∧
      r.white_features.length ≤ ls.length ∧
      (ls.length = 1 → r.white_features = []) := by
  obtain ⟨ds, hds, hlen, hprops⟩ := darkFeaturesOf_spec p ls h
  set sorted := List.insertionSort (fun f g : Feature => f.center ≤ g.center) ds with hsorted
  set whites := (sorted.zip (sorted.rotate 1)).filterMap
    (fun fs => if fs.1.overlaps fs.2 then none
      else some (Feature.mk fs.1.stop fs.2.start)) with hwhites
  have hbuild : Retina.build p ls = some ⟨p, sorted, whites⟩ := by
    rw [Retina.build, hds]
    simp only [Option.bind_eq_bind, Option.some_bind]
    rfl
  have hslen : sorted.length = ls.length := by
    rw [hsorted, List.length_insertionSort, hlen]
  refine ⟨⟨p, sorted, whites⟩, hbuild, hslen, ?_, ?_⟩
  · show whites.length ≤ ls.length
    calc whites.length ≤ (sorted.zip (sorted.rotate 1)).length :=
          List.length_filterMap_le _ _
      _ = min sorted.length (sorted.rotate 1).length := List.length_zip _ _
      _ = sorted.length := by rw [List.length_rotate]; exact min_self _
      _ = ls.length := hslen
  · intro h1
    obtain ⟨f, hf⟩ := List.length_eq_one.1 (hlen.trans h1)
    subst hf
    have hone : sorted = [f] := by
      rw [hsorted]
      simp [List.insertionSort, List.orderedInsert]
    show whites = []
    rw [hwhites, hone, List.rotate_singleton]
    have hov : f.overlaps f :=
      (overlaps_self_iff f).2
        (start_ne_stop_of_width_pos f (hprops f (List.mem_singleton_self f)).2.2.2.2.1)
    simp [List.zip, hov]

/-- The demo landmark list: one landmark of diameter 2 at `(2, 0)`, seen
from the origin, which is strictly outside its disk. -/
theorem demo_landmark_cond :
    ∀ l ∈ [Landmark.mk ⟨2, 0⟩ 2],
      0 < l.diameter ∧ l.radius < (l.position - (⟨0, 0⟩ : Vector)).abs := by
  intro l hl
  rw [List.mem_singleton] at hl
  subst hl
  constructor
  · show (0 : ℝ) < 2
    norm_num
  · have habs : ((Landmark.mk ⟨2, 0⟩ 2).position - (⟨0, 0⟩ : Vector)).abs = 2 := by
      show Real.sqrt ((2 - 0) * (2 - 0) + (0 - 0) * (0 - 0)) = 2
      rw [show ((2 : ℝ) - 0) * (2 - 0) + (0 - 0) * (0 - 0) = 4 by norm_num]
      exact sqrt_four
    rw [habs]
    show (2 : ℝ) / 2 < 2
    norm_num

/-- Claim C1 (counterexample): with a single landmark (diameter 2 at
`(2, 0)`, observer at the origin, strictly outside), `Retina.build`
produces one dark feature but zero light features — not the one light
feature the claim asserts. -/
theorem C1_counterexample :
    ∃ r, Retina.build ⟨0, 0⟩ [⟨⟨2, 0⟩, 2⟩] = some r ∧
      r.dark_features.length = 1 ∧ r.white_features = [] := by
  obtain ⟨r, hb, hdl, -, hw⟩ := retina_build_spec ⟨0, 0⟩ [⟨⟨2, 0⟩, 2⟩] demo_landmark_cond
  exact ⟨r, hb, by rw [hdl]; rfl, hw rfl⟩

/-- Claim C1 (amended): for landmark sets with positive diameters and the
observer strictly outside every disk, `Retina.build` succeeds with exactly
one dark feature per landmark; it produces at most `N` light features — one
per circularly adjacent sorted pair that does not overlap — and for `N = 1`
it produces no light feature at all, because the lone dark feature overlaps
itself. -/
theorem C1_retina_build (p : Vector) (ls : List Landmark) (hne : ls ≠ [])
    (h : ∀ l ∈ ls, 0 < l.diameter ∧ l.radius < (l.position - p).abs) :
    ∃ r, Retina.build p ls = some r ∧ r.dark_features.length = ls.length ∧
      r.white_features.length ≤ ls.length ∧
      (ls.length = 1 → r.white_features = []) :=
  retina_build_spec p ls h

/-- Witness for C1 at a concrete single landmark. -/
theorem C1_retina_build_witness :
    ∃ r, Retina.build ⟨0, 0⟩ [⟨⟨2, 0⟩, 2⟩] = some r ∧
      r.dark_features.length = ([Landmark.mk ⟨2, 0⟩ 2]).length ∧
      r.white_features.length ≤ ([Landmark.mk ⟨2, 0⟩ 2]).length ∧
      (([Landmark.mk ⟨2, 0⟩ 2]).length = 1 → r.white_features = []) :=
  C1_retina_build ⟨0, 0⟩ [⟨⟨2, 0⟩, 2⟩] (by simp) demo_landmark_cond

/-! ### Claim C5 -/

/-- Claim C5 (amended): matching a retina against an identical copy of
itself yields the zero vector, provided no two dark features share a center
and no two white features share a center (then every feature is matched to
itself and every turn/approach contribution vanishes). -/
theorem C5_self_homing_zero (r : Retina)
    (hd : r.dark_features.Pairwise (fun a b => a.center ≠ b.center))
    (hw : r.white_features.Pairwise (fun a b => a.center ≠ b.center)) :
    r.homing_vector r = some ⟨0, 0⟩ := by
  rw [Retina.homing_vector]
  rw [homingLoop_self r.dark_features r.dark_features ⟨0, 0⟩
    (fun sf hsf => find_closest_self sf r.dark_features hd hsf)]
  simp only [Option.bind_eq_bind, Option.some_bind]
  rw [homingLoop_self r.white_features r.white_features ⟨0, 0⟩
    (fun sf hsf => find_closest_self sf r.white_features hw hsf)]
  simp only [Option.some_bind]
  rw [Vector.normalize_zero]
  rfl

/-- Witness for C5 at a concrete retina with singleton feature lists. -/
theorem C5_self_homing_zero_witness :
    (Retina.mk ⟨0, 0⟩ [⟨0, 1⟩] [⟨2, 3⟩]).homing_vector
      (Retina.mk ⟨0, 0⟩ [⟨0, 1⟩] [⟨2, 3⟩]) = some ⟨0, 0⟩ :=
  C5_self_homing_zero ⟨⟨0, 0⟩, [⟨0, 1⟩], [⟨2, 3⟩]⟩ (by simp) (by simp)

/-! ### Concrete-evaluation helpers for the C5 counterexample -/

theorem Vector.zero_add_vec (a : Vector) : (⟨0, 0⟩ : Vector) + a = a := by
  cases a
  simp [Vector.add_def]

theorem mod2pi_two_pi : mod2pi (2 * π) = 0 := by
  rw [mod2pi_eq_sub le_rfl (by linarith [Real.pi_pos])]
  ring

theorem abs_xaxis (x : ℝ) (h : 0 ≤ x) : (Vector.mk x 0).abs = x := by
  rw [Vector.abs, show x * x + 0 * 0 = x ^ 2 by ring, Real.sqrt_sq h]

theorem abs_yaxis (y : ℝ) (h : 0 ≤ y) : (Vector.mk 0 y).abs = y := by
  rw [Vector.abs, show (0 : ℝ) * 0 + y * y = y ^ 2 by ring, Real.sqrt_sq h]

theorem dir_xaxis (x : ℝ) (h : 0 ≤ x) : (Vector.mk x 0).direction = 0 := by
  rw [Vector.direction]
  have harg : atan2 (Vector.mk x 0).y (Vector.mk x 0).x = 0 := by
    rw [atan2]
    have hco : (⟨(Vector.mk x 0).x, (Vector.mk x 0).y⟩ : ℂ) = ((x : ℝ) : ℂ) := by
      apply Complex.ext
      · simp
      · simp
    rw [hco]
    exact Complex.arg_ofReal_of_nonneg h
  simp only [harg, lt_irrefl, if_neg, if_false]

theorem dir_yaxis (y : ℝ) (h : 0 < y) : (Vector.mk 0 y).direction = π / 2 := by
  rw [Vector.direction]
  have harg : atan2 (Vector.mk 0 y).y (Vector.mk 0 y).x = π / 2 := by
    rw [atan2]
    exact Complex.arg_eq_pi_div_two_iff.2 ⟨rfl, h⟩
  rw [harg, if_neg (by linarith [Real.pi_pos])]

/-- Center of a feature wrapping symmetrically around the zero angle. -/
theorem center_wrapped (a : ℝ) (h0 : 0 < a) (h1 : a < π) :
    (Feature.mk (2 * π - a) a).center = 0 := by
  have hpi := Real.pi_pos
  have hacross : (Feature.mk (2 * π - a) a).across_zero := by
    show 2 * π - a > a
    linarith
  rw [Feature.center_of_across _ hacross,
    show ((Feature.mk (2 * π - a) a).start + (Feature.mk (2 * π - a) a).stop) / 2 + π = 2 * π
      from by show (2 * π - a + a) / 2 + π = 2 * π; ring]
  exact mod2pi_two_pi

/-- Width of a feature wrapping symmetrically around the zero angle. -/
theorem width_wrapped (a : ℝ) (h0 : 0 < a) (h1 : a < π) :
    (Feature.mk (2 * π - a) a).width = 2 * a := by
  have hpi := Real.pi_pos
  have hacross : (Feature.mk (2 * π - a) a).across_zero := by
    show 2 * π - a > a
    linarith
  rw [Feature.width, if_pos hacross]
  show a - (2 * π - a) + 2 * π = 2 * a
  ring

/-- Center of an in-range non-wrapping feature as a midpoint. -/
theorem center_mid (s e : ℝ) (hse : s ≤ e) (h0 : 0 ≤ s) (h1 : e < 2 * π) :
    (Feature.mk s e).center = (s + e) / 2 := by
  exact Feature.center_midpoint ⟨s, e⟩ (not_lt.2 hse) h0 (by linarith) (by linarith) h1

theorem width_plain (s e : ℝ) (hse : s ≤ e) : (Feature.mk s e).width = e - s := by
  have hne : ¬(Feature.mk s e).across_zero := not_lt.2 hse
  rw [Feature.width, if_neg hne]

theorem arcsin_half_eq : Real.arcsin (1 / 2) = π / 6 := by
  rw [show (1 / 2 : ℝ) = Real.sin (π / 6) by rw [Real.sin_pi_div_six],
    Real.arcsin_sin (by nlinarith [Real.pi_pos]) (by nlinarith [Real.pi_pos])]

theorem arcsin_lt_pi_six (x : ℝ) (h0 : 0 ≤ x) (h1 : x < 1 / 2) :
    Real.arcsin x < π / 6 := by
  rw [← arcsin_half_eq]
  apply Real.strictMonoOn_arcsin
  · constructor <;> norm_num <;> linarith
  · constructor <;> norm_num
  · exact h1

theorem arcsin_mono_lt (x y : ℝ) (h0 : -1 ≤ x) (h1 : x < y) (h2 : y ≤ 1) :
    Real.arcsin x < Real.arcsin y := by
  apply Real.strictMonoOn_arcsin
  · constructor <;> linarith
  · constructor <;> linarith
  · exact h1

/-- Dark feature of the landmark of diameter 1 at `(2, 0)` seen from the
origin: it wraps the zero angle symmetrically with half-width
`arcsin(1/4)`. -/
theorem cex_f1 :
    Feature.from_position_and_landmark ⟨0, 0⟩ ⟨⟨2, 0⟩, 1⟩ =
      some ⟨2 * π - Real.arcsin (1 / 4), Real.arcsin (1 / 4)⟩ := by
  have hpi := Real.pi_pos
  have hv : (Landmark.mk ⟨2, 0⟩ 1).position - (⟨0, 0⟩ : Vector) = ⟨2, 0⟩ := by
    rw [Vector.sub_def]
    norm_num
  have habs : ((Landmark.mk ⟨2, 0⟩ 1).position - (⟨0, 0⟩ : Vector)).abs = 2 := by
    rw [hv]
    exact abs_xaxis 2 (by norm_num)
  have hdir : ((Landmark.mk ⟨2, 0⟩ 1).position - (⟨0, 0⟩ : Vector)).direction = 0 := by
    rw [hv]
    exact dir_xaxis 2 (by norm_num)
  have hratio : (Landmark.mk ⟨2, 0⟩ 1).radius /
      ((Landmark.mk ⟨2, 0⟩ 1).position - (⟨0, 0⟩ : Vector)).abs = 1 / 4 := by
    rw [habs]
    show (1 : ℝ) / 2 / 2 = 1 / 4
    norm_num
  have hpos : 0 < Real.arcsin (1 / 4) := Real.arcsin_pos.2 (by norm_num)
  have hlt : Real.arcsin (1 / 4) < π / 6 := arcsin_lt_pi_six _ (by norm_num) (by norm_num)
  rw [from_position_eval ⟨0, 0⟩ ⟨⟨2, 0⟩, 1⟩ (by rw [habs]; norm_num)
    (by rw [hratio]; norm_num) (by rw [hratio]; norm_num), hdir, hratio,
    if_pos (show (0 : ℝ) - Real.arcsin (1 / 4) < 0 by linarith),
    show (0 : ℝ) - Real.arcsin (1 / 4) + 2 * π = 2 * π - Real.arcsin (1 / 4) by ring,
    zero_add, mod2pi_eq_self (Real.arcsin_nonneg.2 (by norm_num)) (by linarith)]

/-- Dark feature of the landmark of diameter 1 at `(4, 0)` seen from the
origin: it wraps the zero angle symmetrically with half-width
`arcsin(1/8)`. -/
theorem cex_f2 :
    Feature.from_position_and_landmark ⟨0, 0⟩ ⟨⟨4, 0⟩, 1⟩ =
      some ⟨2 * π - Real.arcsin (1 / 8), Real.arcsin (1 / 8)⟩ := by
  have hpi := Real.pi_pos
  have hv : (Landmark.mk ⟨4, 0⟩ 1).position - (⟨0, 0⟩ : Vector) = ⟨4, 0⟩ := by
    rw [Vector.sub_def]
    norm_num
  have habs : ((Landmark.mk ⟨4, 0⟩ 1).position - (⟨0, 0⟩ : Vector)).abs = 4 := by
    rw [hv]
    exact abs_xaxis 4 (by norm_num)
  have hdir : ((Landmark.mk ⟨4, 0⟩ 1).position - (⟨0, 0⟩ : Vector)).direction = 0 := by
    rw [hv]
    exact dir_xaxis 4 (by norm_num)
  have hratio : (Landmark.mk ⟨4, 0⟩ 1).radius /
      ((Landmark.mk ⟨4, 0⟩ 1).position - (⟨0, 0⟩ : Vector)).abs = 1 / 8 := by
    rw [habs]
    show (1 : ℝ) / 2 / 4 = 1 / 8
    norm_num
  have hpos : 0 < Real.arcsin (1 / 8) := Real.arcsin_pos.2 (by norm_num)
  have hlt : Real.arcsin (1 / 8) < π / 6 := arcsin_lt_pi_six _ (by norm_num) (by norm_num)
  rw [from_position_eval ⟨0, 0⟩ ⟨⟨4, 0⟩, 1⟩ (by rw [habs]; norm_num)
    (by rw [hratio]; norm_num) (by rw [hratio]; norm_num), hdir, hratio,
    if_pos (show (0 : ℝ) - Real.arcsin (1 / 8) < 0 by linarith),
    show (0 : ℝ) - Real.arcsin (1 / 8) + 2 * π = 2 * π - Real.arcsin (1 / 8) by ring,
    zero_add, mod2pi_eq_self (Real.arcsin_nonneg.2 (by norm_num)) (by linarith)]

/-- Dark feature of the landmark of diameter 1 at `(0, 3)` seen from the
origin: symmetric around `pi/2` with half-width `arcsin(1/6)`. -/
theorem cex_f3 :
    Feature.from_position_and_landmark ⟨0, 0⟩ ⟨⟨0, 3⟩, 1⟩ =
      some ⟨π / 2 - Real.arcsin (1 / 6), π / 2 + Real.arcsin (1 / 6)⟩ := by
  have hpi := Real.pi_pos
  have hv : (Landmark.mk ⟨0, 3⟩ 1).position - (⟨0, 0⟩ : Vector) = ⟨0, 3⟩ := by
    rw [Vector.sub_def]
    norm_num
  have habs : ((Landmark.mk ⟨0, 3⟩ 1).position - (⟨0, 0⟩ : Vector)).abs = 3 := by
    rw [hv]
    exact abs_yaxis 3 (by norm_num)
  have hdir : ((Landmark.mk ⟨0, 3⟩ 1).position - (⟨0, 0⟩ : Vector)).direction = π / 2 := by
    rw [hv]
    exact dir_yaxis 3 (by norm_num)
  have hratio : (Landmark.mk ⟨0, 3⟩ 1).radius /
      ((Landmark.mk ⟨0, 3⟩ 1).position - (⟨0, 0⟩ : Vector)).abs = 1 / 6 := by
    rw [habs]
    show (1 : ℝ) / 2 / 3 = 1 / 6
    norm_num
  have hpos : 0 < Real.arcsin (1 / 6) := Real.arcsin_pos.2 (by norm_num)
  have hlt : Real.arcsin (1 / 6) < π / 6 := arcsin_lt_pi_six _ (by norm_num) (by norm_num)
  rw [from_position_eval ⟨0, 0⟩ ⟨⟨0, 3⟩, 1⟩ (by rw [habs]; norm_num)
    (by rw [hratio]; norm_num) (by rw [hratio]; norm_num), hdir, hratio,
    if_neg (show ¬(π / 2 - Real.arcsin (1 / 6) < 0) by push_neg; linarith),
    mod2pi_eq_self (by linarith) (by linarith)]

theorem cex_c1 :
    (Feature.mk (2 * π - Real.arcsin (1 / 4)) (Real.arcsin (1 / 4))).center = 0 :=
  center_wrapped _ (Real.arcsin_pos.2 (by norm_num))
    (by linarith [arcsin_lt_pi_six (1 / 4) (by norm_num) (by norm_num), Real.pi_pos])

theorem cex_c2 :
    (Feature.mk (2 * π - Real.arcsin (1 / 8)) (Real.arcsin (1 / 8))).center = 0 :=
  center_wrapped _ (Real.arcsin_pos.2 (by norm_num))
    (by linarith [arcsin_lt_pi_six (1 / 8) (by norm_num) (by norm_num), Real.pi_pos])

theorem cex_c3 :
    (Feature.mk (π / 2 - Real.arcsin (1 / 6)) (π / 2 + Real.arcsin (1 / 6))).center = π / 2 := by
  have hpi := Real.pi_pos
  have hpos : 0 < Real.arcsin (1 / 6) := Real.arcsin_pos.2 (by norm_num)
  have hlt : Real.arcsin (1 / 6) < π / 6 := arcsin_lt_pi_six _ (by norm_num) (by norm_num)
  rw [center_mid _ _ (by linarith) (by linarith) (by linarith)]
  ring

theorem cex_wd1 :
    (Feature.mk (2 * π - Real.arcsin (1 / 4)) (Real.arcsin (1 / 4))).width =
      2 * Real.arcsin (1 / 4) :=
  width_wrapped _ (Real.arcsin_pos.2 (by norm_num))
    (by linarith [arcsin_lt_pi_six (1 / 4) (by norm_num) (by norm_num), Real.pi_pos])

theorem cex_wd2 :
    (Feature.mk (2 * π - Real.arcsin (1 / 8)) (Real.arcsin (1 / 8))).width =
      2 * Real.arcsin (1 / 8) :=
  width_wrapped _ (Real.arcsin_pos.2 (by norm_num))
    (by linarith [arcsin_lt_pi_six (1 / 8) (by norm_num) (by norm_num), Real.pi_pos])

/-- The two zero-wrapping dark features (same bearing, different distance)
overlap. -/
theorem cex_ov12 :
    (Feature.mk (2 * π - Real.arcsin (1 / 4)) (Real.arcsin (1 / 4))).overlaps
      (Feature.mk (2 * π - Real.arcsin (1 / 8)) (Real.arcsin (1 / 8))) := by
  have hpi := Real.pi_pos
  have h1 : 0 < Real.arcsin (1 / 4) := Real.arcsin_pos.2 (by norm_num)
  have h2 : 0 < Real.arcsin (1 / 8) := Real.arcsin_pos.2 (by norm_num)
  have h3 : Real.arcsin (1 / 4) < π / 6 := arcsin_lt_pi_six _ (by norm_num) (by norm_num)
  have h4 : Real.arcsin (1 / 8) < π / 6 := arcsin_lt_pi_six _ (by norm_num) (by norm_num)
  rw [overlaps_eq_of_not_lt _ _ (by rw [cex_c1, cex_c2]; exact lt_irrefl 0)]
  refine Or.inl ⟨?_, ?_⟩
  · show 2 * π - Real.arcsin (1 / 8) > Real.arcsin (1 / 8)
    linarith
  · show 2 * π - Real.arcsin (1 / 4) > Real.arcsin (1 / 4)
    linarith

/-- The second zero-wrapping dark feature does not overlap the feature
around `pi/2`. -/
theorem cex_nov23 :
    ¬(Feature.mk (2 * π - Real.arcsin (1 / 8)) (Real.arcsin (1 / 8))).overlaps
      (Feature.mk (π / 2 - Real.arcsin (1 / 6)) (π / 2 + Real.arcsin (1 / 6))) := by
  have hpi := Real.pi_pos
  have h2 : 0 < Real.arcsin (1 / 8) := Real.arcsin_pos.2 (by norm_num)
  have h3 : 0 < Real.arcsin (1 / 6) := Real.arcsin_pos.2 (by norm_num)
  have h4 : Real.arcsin (1 / 8) < π / 6 := arcsin_lt_pi_six _ (by norm_num) (by norm_num)
  have h5 : Real.arcsin (1 / 6) < π / 6 := arcsin_lt_pi_six _ (by norm_num) (by norm_num)
  rw [overlaps_eq_of_lt _ _ (by rw [cex_c2, cex_c3]; linarith)]
  rintro (⟨-, h⟩ | ⟨-, h⟩ | h)
  · have h' : π / 2 - Real.arcsin (1 / 6) > π / 2 + Real.arcsin (1 / 6) := h
    linarith
  · have h' : 2 * π - Real.arcsin (1 / 8) < π / 2 + Real.arcsin (1 / 6) := h
    linarith
  · have h' : Real.arcsin (1 / 8) > π / 2 - Real.arcsin (1 / 6) := h
    linarith

/-- The feature around `pi/2` does not overlap the first zero-wrapping dark
feature. -/
theorem cex_nov31 :
    ¬(Feature.mk (π / 2 - Real.arcsin (1 / 6)) (π / 2 + Real.arcsin (1 / 6))).overlaps
      (Feature.mk (2 * π - Real.arcsin (1 / 4)) (Real.arcsin (1 / 4))) := by
  have hpi := Real.pi_pos
  have h1 : 0 < Real.arcsin (1 / 4) := Real.arcsin_pos.2 (by norm_num)
  have h3 : 0 < Real.arcsin (1 / 6) := Real.arcsin_pos.2 (by norm_num)
  have h4 : Real.arcsin (1 / 4) < π / 6 := arcsin_lt_pi_six _ (by norm_num) (by norm_num)
  have h5 : Real.arcsin (1 / 6) < π / 6 := arcsin_lt_pi_six _ (by norm_num) (by norm_num)
  rw [overlaps_eq_of_not_lt _ _ (by rw [cex_c3, cex_c1]; push_neg; linarith)]
  rintro (⟨-, h⟩ | ⟨-, h⟩ | h)
  · have h' : π / 2 - Real.arcsin (1 / 6) > π / 2 + Real.arcsin (1 / 6) := h
    linarith
  · have h' : 2 * π - Real.arcsin (1 / 4) < π / 2 + Real.arcsin (1 / 6) := h
    linarith
  · have h' : Real.arcsin (1 / 4) > π / 2 - Real.arcsin (1 / 6) := h
    linarith

/-- The full retina built from the three landmarks: three dark features (two
of them sharing center 0) and two white features. -/
theorem cex_build :
    Retina.build ⟨0, 0⟩ [⟨⟨2, 0⟩, 1⟩, ⟨⟨4, 0⟩, 1⟩, ⟨⟨0, 3⟩, 1⟩] =
      some ⟨⟨0, 0⟩,
        [⟨2 * π - Real.arcsin (1 / 4), Real.arcsin (1 / 4)⟩,
         ⟨2 * π - Real.arcsin (1 / 8), Real.arcsin (1 / 8)⟩,
         ⟨π / 2 - Real.arcsin (1 / 6), π / 2 + Real.arcsin (1 / 6)⟩],
        [⟨Real.arcsin (1 / 8), π / 2 - Real.arcsin (1 / 6)⟩,
         ⟨π / 2 + Real.arcsin (1 / 6), 2 * π - Real.arcsin (1 / 4)⟩]⟩ := by
  have hpi := Real.pi_pos
  have hdf : darkFeaturesOf ⟨0, 0⟩ [⟨⟨2, 0⟩, 1⟩, ⟨⟨4, 0⟩, 1⟩, ⟨⟨0, 3⟩, 1⟩] =
      some [⟨2 * π - Real.arcsin (1 / 4), Real.arcsin (1 / 4)⟩,
        ⟨2 * π - Real.arcsin (1 / 8), Real.arcsin (1 / 8)⟩,
        ⟨π / 2 - Real.arcsin (1 / 6), π / 2 + Real.arcsin (1 / 6)⟩] := by
    rw [darkFeaturesOf, cex_f1]
    simp only [Option.bind_eq_bind, Option.some_bind]
    rw [darkFeaturesOf, cex_f2]
    simp only [Option.bind_eq_bind, Option.some_bind]
    rw [darkFeaturesOf, cex_f3]
    simp only [Option.bind_eq_bind, Option.some_bind]
    rw [darkFeaturesOf]
    simp only [Option.bind_eq_bind, Option.some_bind]
    rfl
  rw [Retina.build, hdf]
  simp only [Option.bind_eq_bind, Option.some_bind]
  have hsort : List.insertionSort (fun f g : Feature => f.center ≤ g.center)
      [⟨2 * π - Real.arcsin (1 / 4), Real.arcsin (1 / 4)⟩,
       ⟨2 * π - Real.arcsin (1 / 8), Real.arcsin (1 / 8)⟩,
       ⟨π / 2 - Real.arcsin (1 / 6), π / 2 + Real.arcsin (1 / 6)⟩] =
      [⟨2 * π - Real.arcsin (1 / 4), Real.arcsin (1 / 4)⟩,
       ⟨2 * π - Real.arcsin (1 / 8), Real.arcsin (1 / 8)⟩,
       ⟨π / 2 - Real.arcsin (1 / 6), π / 2 + Real.arcsin (1 / 6)⟩] := by
    simp only [List.insertionSort]
    rw [List.orderedInsert_nil]
    have e1 : List.orderedInsert (fun f g : Feature => f.center ≤ g.center)
        ⟨2 * π - Real.arcsin (1 / 8), Real.arcsin (1 / 8)⟩
        [⟨π / 2 - Real.arcsin (1 / 6), π / 2 + Real.arcsin (1 / 6)⟩] =
        [⟨2 * π - Real.arcsin (1 / 8), Real.arcsin (1 / 8)⟩,
         ⟨π / 2 - Real.arcsin (1 / 6), π / 2 + Real.arcsin (1 / 6)⟩] := by
      simp only [List.orderedInsert]
      rw [if_pos (by rw [cex_c2, cex_c3]; linarith)]
    rw [e1]
    have e2 : List.orderedInsert (fun f g : Feature => f.center ≤ g.center)
        ⟨2 * π - Real.arcsin (1 / 4), Real.arcsin (1 / 4)⟩
        [⟨2 * π - Real.arcsin (1 / 8), Real.arcsin (1 / 8)⟩,
         ⟨π / 2 - Real.arcsin (1 / 6), π / 2 + Real.arcsin (1 / 6)⟩] =
        [⟨2 * π - Real.arcsin (1 / 4), Real.arcsin (1 / 4)⟩,
         ⟨2 * π - Real.arcsin (1 / 8), Real.arcsin (1 / 8)⟩,
         ⟨π / 2 - Real.arcsin (1 / 6), π / 2 + Real.arcsin (1 / 6)⟩] := by
      simp only [List.orderedInsert]
      rw [if_pos (by rw [cex_c1, cex_c2])]
    rw [e2]
  rw [hsort]
  have hrot : ([⟨2 * π - Real.arcsin (1 / 4), Real.arcsin (1 / 4)⟩,
      ⟨2 * π - Real.arcsin (1 / 8), Real.arcsin (1 / 8)⟩,
      ⟨π / 2 - Real.arcsin (1 / 6), π / 2 + Real.arcsin (1 / 6)⟩] : List Feature).rotate 1 =
      [⟨2 * π - Real.arcsin (1 / 8), Real.arcsin (1 / 8)⟩,
       ⟨π / 2 - Real.arcsin (1 / 6), π / 2 + Real.arcsin (1 / 6)⟩,
       ⟨2 * π - Real.arcsin (1 / 4), Real.arcsin (1 / 4)⟩] := by
    rw [List.rotate_cons_succ, List.rotate_zero]
    rfl
  rw [hrot]
  simp only [List.zip_cons_cons, List.zip_nil_right, List.filterMap_cons]
  rw [if_pos cex_ov12, if_neg cex_nov23, if_neg cex_nov31]
  rfl

theorem cex_cw1 :
    (Feature.mk (Real.arcsin (1 / 8)) (π / 2 - Real.arcsin (1 / 6))).center =
      (Real.arcsin (1 / 8) + (π / 2 - Real.arcsin (1 / 6))) / 2 := by
  have hpi := Real.pi_pos
  have h2 : 0 < Real.arcsin (1 / 8) := Real.arcsin_pos.2 (by norm_num)
  have h3 : 0 < Real.arcsin (1 / 6) := Real.arcsin_pos.2 (by norm_num)
  have h4 : Real.arcsin (1 / 8) < π / 6 := arcsin_lt_pi_six _ (by norm_num) (by norm_num)
  have h5 : Real.arcsin (1 / 6) < π / 6 := arcsin_lt_pi_six _ (by norm_num) (by norm_num)
  exact center_mid _ _ (by linarith) (by linarith) (by linarith)

theorem cex_cw2 :
    (Feature.mk (π / 2 + Real.arcsin (1 / 6)) (2 * π - Real.arcsin (1 / 4))).center =
      (π / 2 + Real.arcsin (1 / 6) + (2 * π - Real.arcsin (1 / 4))) / 2 := by
  have hpi := Real.pi_pos
  have h1 : 0 < Real.arcsin (1 / 4) := Real.arcsin_pos.2 (by norm_num)
  have h3 : 0 < Real.arcsin (1 / 6) := Real.arcsin_pos.2 (by norm_num)
  have h4 : Real.arcsin (1 / 4) < π / 6 := arcsin_lt_pi_six _ (by norm_num) (by norm_num)
  have h5 : Real.arcsin (1 / 6) < π / 6 := arcsin_lt_pi_six _ (by norm_num) (by norm_num)
  exact center_mid _ _ (by linarith) (by linarith) (by linarith)

theorem cex_fc1 :
    (Feature.mk (2 * π - Real.arcsin (1 / 4)) (Real.arcsin (1 / 4))).find_closest
      [⟨2 * π - Real.arcsin (1 / 4), Real.arcsin (1 / 4)⟩,
       ⟨2 * π - Real.arcsin (1 / 8), Real.arcsin (1 / 8)⟩,
       ⟨π / 2 - Real.arcsin (1 / 6), π / 2 + Real.arcsin (1 / 6)⟩] =
      some ⟨2 * π - Real.arcsin (1 / 4), Real.arcsin (1 / 4)⟩ := by
  rw [Feature.find_closest]
  congr 1
  rw [findClosestAux, if_neg (by
    rw [distProxy_self_eq_zero _ _ rfl, distProxy_self_eq_zero _ _ (cex_c1.trans cex_c2.symm)]
    exact lt_irrefl 0)]
  rw [findClosestAux, if_neg (by
    rw [distProxy_self_eq_zero _ _ rfl]
    exact not_lt.2 (distProxy_nonneg _ _))]
  rw [findClosestAux]

theorem cex_fc2 :
    (Feature.mk (2 * π - Real.arcsin (1 / 8)) (Real.arcsin (1 / 8))).find_closest
      [⟨2 * π - Real.arcsin (1 / 4), Real.arcsin (1 / 4)⟩,
       ⟨2 * π - Real.arcsin (1 / 8), Real.arcsin (1 / 8)⟩,
       ⟨π / 2 - Real.arcsin (1 / 6), π / 2 + Real.arcsin (1 / 6)⟩] =
      some ⟨2 * π - Real.arcsin (1 / 4), Real.arcsin (1 / 4)⟩ := by
  rw [Feature.find_closest]
  congr 1
  rw [findClosestAux, if_neg (by
    rw [distProxy_self_eq_zero _ _ (cex_c2.trans cex_c1.symm),
      distProxy_self_eq_zero _ _ rfl]
    exact lt_irrefl 0)]
  rw [findClosestAux, if_neg (by
    rw [distProxy_self_eq_zero _ _ (cex_c2.trans cex_c1.symm)]
    exact not_lt.2 (distProxy_nonneg _ _))]
  rw [findClosestAux]

theorem cex_fc3 :
    (Feature.mk (π / 2 - Real.arcsin (1 / 6)) (π / 2 + Real.arcsin (1 / 6))).find_closest
      [⟨2 * π - Real.arcsin (1 / 4), Real.arcsin (1 / 4)⟩,
       ⟨2 * π - Real.arcsin (1 / 8), Real.arcsin (1 / 8)⟩,
       ⟨π / 2 - Real.arcsin (1 / 6), π / 2 + Real.arcsin (1 / 6)⟩] =
      some ⟨π / 2 - Real.arcsin (1 / 6), π / 2 + Real.arcsin (1 / 6)⟩ := by
  have hpi := Real.pi_pos
  have heq : distProxy ⟨π / 2 - Real.arcsin (1 / 6), π / 2 + Real.arcsin (1 / 6)⟩
      (⟨2 * π - Real.arcsin (1 / 4), Real.arcsin (1 / 4)⟩ : Feature) =
      distProxy ⟨π / 2 - Real.arcsin (1 / 6), π / 2 + Real.arcsin (1 / 6)⟩
      (⟨2 * π - Real.arcsin (1 / 8), Real.arcsin (1 / 8)⟩ : Feature) := by
    rw [distProxy, distProxy, cex_c1, cex_c2]
  have hposd : 0 < distProxy ⟨π / 2 - Real.arcsin (1 / 6), π / 2 + Real.arcsin (1 / 6)⟩
      (⟨2 * π - Real.arcsin (1 / 4), Real.arcsin (1 / 4)⟩ : Feature) := by
    apply distProxy_pos
    rw [cex_c3, cex_c1]
    intro h
    linarith
  rw [Feature.find_closest]
  congr 1
  rw [findClosestAux, if_neg (by rw [heq]; exact lt_irrefl _)]
  rw [findClosestAux, if_pos (by rw [distProxy_self_eq_zero _ _ rfl]; exact hposd)]
  rw [findClosestAux]

theorem cex_fcw1 :
    (Feature.mk (Real.arcsin (1 / 8)) (π / 2 - Real.arcsin (1 / 6))).find_closest
      [⟨Real.arcsin (1 / 8), π / 2 - Real.arcsin (1 / 6)⟩,
       ⟨π / 2 + Real.arcsin (1 / 6), 2 * π - Real.arcsin (1 / 4)⟩] =
      some ⟨Real.arcsin (1 / 8), π / 2 - Real.arcsin (1 / 6)⟩ := by
  rw [Feature.find_closest]
  congr 1
  rw [findClosestAux, if_neg (by
    rw [distProxy_self_eq_zero _ _ rfl]
    exact not_lt.2 (distProxy_nonneg _ _))]
  rw [findClosestAux]

theorem cex_fcw2 :
    (Feature.mk (π / 2 + Real.arcsin (1 / 6)) (2 * π - Real.arcsin (1 / 4))).find_closest
      [⟨Real.arcsin (1 / 8), π / 2 - Real.arcsin (1 / 6)⟩,
       ⟨π / 2 + Real.arcsin (1 / 6), 2 * π - Real.arcsin (1 / 4)⟩] =
      some ⟨π / 2 + Real.arcsin (1 / 6), 2 * π - Real.arcsin (1 / 4)⟩ := by
  have hpi := Real.pi_pos
  have h1 : 0 < Real.arcsin (1 / 4) := Real.arcsin_pos.2 (by norm_num)
  have h2 : 0 < Real.arcsin (1 / 8) := Real.arcsin_pos.2 (by norm_num)
  have h3 : 0 < Real.arcsin (1 / 6) := Real.arcsin_pos.2 (by norm_num)
  have h4 : Real.arcsin (1 / 4) < π / 6 := arcsin_lt_pi_six _ (by norm_num) (by norm_num)
  have h5 : Real.arcsin (1 / 8) < π / 6 := arcsin_lt_pi_six _ (by norm_num) (by norm_num)
  have h6 : Real.arcsin (1 / 6) < π / 6 := arcsin_lt_pi_six _ (by norm_num) (by norm_num)
  have hposd : 0 < distProxy
      ⟨π / 2 + Real.arcsin (1 / 6), 2 * π - Real.arcsin (1 / 4)⟩
      (⟨Real.arcsin (1 / 8), π / 2 - Real.arcsin (1 / 6)⟩ : Feature) := by
    apply distProxy_pos
    rw [cex_cw2, cex_cw1]
    intro h
    linarith
  rw [Feature.find_closest]
  congr 1
  rw [findClosestAux, if_pos (by rw [distProxy_self_eq_zero _ _ rfl]; exact hposd)]
  rw [findClosestAux]

theorem cex_dark_loop :
    homingLoop
      [⟨2 * π - Real.arcsin (1 / 4), Real.arcsin (1 / 4)⟩,
       ⟨2 * π - Real.arcsin (1 / 8), Real.arcsin (1 / 8)⟩,
       ⟨π / 2 - Real.arcsin (1 / 6), π / 2 + Real.arcsin (1 / 6)⟩]
      [⟨2 * π - Real.arcsin (1 / 4), Real.arcsin (1 / 4)⟩,
       ⟨2 * π - Real.arcsin (1 / 8), Real.arcsin (1 / 8)⟩,
       ⟨π / 2 - Real.arcsin (1 / 6), π / 2 + Real.arcsin (1 / 6)⟩] ⟨0, 0⟩ =
      some ⟨-3, 0⟩ := by
  have ht11 : (Feature.mk (2 * π - Real.arcsin (1 / 4)) (Real.arcsin (1 / 4))).turn_vector
      ⟨2 * π - Real.arcsin (1 / 4), Real.arcsin (1 / 4)⟩ = ⟨0, 0⟩ := by
    rw [Feature.turn_vector, if_pos rfl]
  have ha11 : (Feature.mk (2 * π - Real.arcsin (1 / 4)) (Real.arcsin (1 / 4))).approach_vector
      ⟨2 * π - Real.arcsin (1 / 4), Real.arcsin (1 / 4)⟩ = ⟨0, 0⟩ := by
    rw [Feature.approach_vector, if_pos rfl]
  have ht12 : (Feature.mk (2 * π - Real.arcsin (1 / 4)) (Real.arcsin (1 / 4))).turn_vector
      ⟨2 * π - Real.arcsin (1 / 8), Real.arcsin (1 / 8)⟩ = ⟨0, 0⟩ := by
    rw [Feature.turn_vector, if_pos (cex_c2.trans cex_c1.symm)]
  have harc : Real.arcsin (1 / 8) < Real.arcsin (1 / 4) :=
    arcsin_mono_lt _ _ (by norm_num) (by norm_num) (by norm_num)
  have hwid : (Feature.mk (2 * π - Real.arcsin (1 / 8)) (Real.arcsin (1 / 8))).width <
      (Feature.mk (2 * π - Real.arcsin (1 / 4)) (Real.arcsin (1 / 4))).width := by
    rw [cex_wd1, cex_wd2]
    linarith
  have ha12 : (Feature.mk (2 * π - Real.arcsin (1 / 4)) (Real.arcsin (1 / 4))).approach_vector
      ⟨2 * π - Real.arcsin (1 / 8), Real.arcsin (1 / 8)⟩ = ⟨-3, 0⟩ := by
    rw [approach_vector_of_narrower _ _ hwid, cex_c1, Real.cos_zero, Real.sin_zero]
    exact congrArg₂ Vector.mk (by norm_num) (by norm_num)
  have ht33 : (Feature.mk (π / 2 - Real.arcsin (1 / 6)) (π / 2 + Real.arcsin (1 / 6))).turn_vector
      ⟨π / 2 - Real.arcsin (1 / 6), π / 2 + Real.arcsin (1 / 6)⟩ = ⟨0, 0⟩ := by
    rw [Feature.turn_vector, if_pos rfl]
  have ha33 : (Feature.mk (π / 2 - Real.arcsin (1 / 6))
      (π / 2 + Real.arcsin (1 / 6))).approach_vector
      ⟨π / 2 - Real.arcsin (1 / 6), π / 2 + Real.arcsin (1 / 6)⟩ = ⟨0, 0⟩ := by
    rw [Feature.approach_vector, if_pos rfl]
  rw [homingLoop_step _ _ _ _ _ cex_fc1]
  rw [ht11, ha11, Vector.add_zero_vec, Vector.add_zero_vec]
  rw [homingLoop_step _ _ _ _ _ cex_fc2]
  rw [ht12, ha12, Vector.add_zero_vec, Vector.zero_add_vec]
  rw [homingLoop_step _ _ _ _ _ cex_fc3]
  rw [ht33, ha33, Vector.add_zero_vec, Vector.add_zero_vec]
  rw [homingLoop]

theorem cex_white_loop :
    homingLoop
      [⟨Real.arcsin (1 / 8), π / 2 - Real.arcsin (1 / 6)⟩,
       ⟨π / 2 + Real.arcsin (1 / 6), 2 * π - Real.arcsin (1 / 4)⟩]
      [⟨Real.arcsin (1 / 8), π / 2 - Real.arcsin (1 / 6)⟩,
       ⟨π / 2 + Real.arcsin (1 / 6), 2 * π - Real.arcsin (1 / 4)⟩] ⟨-3, 0⟩ =
      some ⟨-3, 0⟩ := by
  have ht1 : (Feature.mk (Real.arcsin (1 / 8)) (π / 2 - Real.arcsin (1 / 6))).turn_vector
      ⟨Real.arcsin (1 / 8), π / 2 - Real.arcsin (1 / 6)⟩ = ⟨0, 0⟩ := by
    rw [Feature.turn_vector, if_pos rfl]
  have ha1 : (Feature.mk (Real.arcsin (1 / 8)) (π / 2 - Real.arcsin (1 / 6))).approach_vector
      ⟨Real.arcsin (1 / 8), π / 2 - Real.arcsin (1 / 6)⟩ = ⟨0, 0⟩ := by
    rw [Feature.approach_vector, if_pos rfl]
  have ht2 : (Feature.mk (π / 2 + Real.arcsin (1 / 6))
      (2 * π - Real.arcsin (1 / 4))).turn_vector
      ⟨π / 2 + Real.arcsin (1 / 6), 2 * π - Real.arcsin (1 / 4)⟩ = ⟨0, 0⟩ := by
    rw [Feature.turn_vector, if_pos rfl]
  have ha2 : (Feature.mk (π / 2 + Real.arcsin (1 / 6))
      (2 * π - Real.arcsin (1 / 4))).approach_vector
      ⟨π / 2 + Real.arcsin (1 / 6), 2 * π - Real.arcsin (1 / 4)⟩ = ⟨0, 0⟩ := by
    rw [Feature.approach_vector, if_pos rfl]
  rw [homingLoop_step _ _ _ _ _ cex_fcw1]
  rw [ht1, ha1, Vector.add_zero_vec, Vector.add_zero_vec]
  rw [homingLoop_step _ _ _ _ _ cex_fcw2]
  rw [ht2, ha2, Vector.add_zero_vec, Vector.add_zero_vec]
  rw [homingLoop]

/-- Claim C5 (counterexample): three landmarks — two at the same bearing
(at `(2,0)` and `(4,0)`), one at `(0,3)` — give a retina with non-empty
dark and white feature lists whose homing vector against itself is
`(-1, 0)`, not the zero vector: the second dark feature is matched to the
first (same center, tie broken by iteration order), whose width differs. -/
theorem C5_counterexample :
    ∃ r, Retina.build ⟨0, 0⟩ [⟨⟨2, 0⟩, 1⟩, ⟨⟨4, 0⟩, 1⟩, ⟨⟨0, 3⟩, 1⟩] = some r ∧
      r.dark_features ≠ [] ∧ r.white_features ≠ [] ∧
      r.homing_vector r ≠ some ⟨0, 0⟩ := by
  refine ⟨_, cex_build, by simp, by simp, ?_⟩
  have hnorm : (Vector.mk (-3 : ℝ) 0).normalize = ⟨-1, 0⟩ := by
    have habs : (Vector.mk (-3 : ℝ) 0).abs = 3 := by
      rw [Vector.abs, show (-3 : ℝ) * -3 + 0 * 0 = 3 ^ 2 by norm_num,
        Real.sqrt_sq (by norm_num : (0 : ℝ) ≤ 3)]
    rw [Vector.normalize, if_neg (by rw [habs]; norm_num), habs]
    exact congrArg₂ Vector.mk (by norm_num) (by norm_num)
  rw [homing_vector_eval _ _ _ _ cex_dark_loop cex_white_loop, hnorm]
  intro h
  have h2 := Option.some.inj h
  have h3 : (-1 : ℝ) = 0 := congrArg Vector.x h2
  norm_num at h3

end

end HomingBees
